import Mathlib

/-!
# jam lexer: a shallow embedding of `src/lexer.c`

The C lexer walks a NUL-terminated buffer with three pointers (`start`,
`current`, `line_start`) and appends to two parallel heap arrays (`tokens`,
`locations`).  Here

* the buffer is a `List Char` holding the bytes before the terminator; a read
  at or past the end of the list sees the terminator `'\x00'`;
* pointers into the buffer are byte offsets from `start` (so `start` is offset 0
  and `current - start` is just `current`);
* each heap array is a `List` whose length is the allocated capacity; `realloc`
  keeps the old slots and adds fresh ones, a store `a[i] = v` is `List.set`;
* `size_t` counters are `Nat`: every counter is bounded by the buffer length
  plus one, so no wrap-around can occur on a buffer that fits in memory;
* a C string value (`char *`) is `Option (List Char)`: `none` is `NULL`, and
  `some s` is the text before the terminator.

`lexer.h` is not part of the sources at hand; the enum `Token` and the structs
`TokenData`, `Location`, `Lexer` are reconstructed from the way `lexer.c` and
`jam.c` use them.
-/

namespace Jam

/-- Token kinds: every enumerator of `Token` that `lexer.c` mentions. -/
inductive Token where
  | tok_eof
  | tok_lparen
  | tok_rparen
  | tok_lbrace
  | tok_rbrace
  | tok_lbracket
  | tok_rbracket
  | tok_comma
  | tok_colon
  | tok_double_colon
  | tok_semicolon
  | tok_plus
  | tok_minus
  | tok_star
  | tok_slash
  | tok_equal
  | tok_less_than
  | tok_greater_than
  | tok_period
  | tok_ampersand
  | tok_pipe
  | tok_exclamation
  | tok_caret
  | tok_percent
  | tok_if
  | tok_else
  | tok_while
  | tok_func
  | tok_return
  | tok_string
  | tok_identifier
  | tok_number
  deriving DecidableEq

open Token

/-- Struct `TokenData`: the fields `type`, `lexeme`, `length` written by `push_token`. -/
structure TokenData where
  type : Token
  lexeme : Option (List Char)
  length : Nat
  deriving DecidableEq

/-- Struct `Location`: the fields `line`, `column`, `offset` written by `push_token`. -/
structure Location where
  line : Nat
  column : Nat
  offset : Nat
  deriving DecidableEq

/-- Struct `Lexer`, with the fields that `lexer_init` sets. -/
structure Lexer where
  start : List Char
  current : Nat
  line_start : Nat
  token_count : Nat
  token_capacity : Nat
  line_number : Nat
  tokens : List TokenData
  locations : List Location
  deriving DecidableEq

/-- The string terminator. -/
def NUL : Char := '\x00'

/-- Contents of a slot that `realloc` has added and nobody has written yet. -/
def TokenData.fresh : TokenData := ⟨tok_eof, none, 0⟩

/-- Contents of a location slot that `realloc` has added and nobody has written yet. -/
def Location.fresh : Location := ⟨0, 0, 0⟩

/-- Function `isdigit` of `<ctype.h>` in the C locale.  The three `<ctype.h>`
tests are taken on the character code; codes above 127 are in none of the
classes. -/
def isdigit (c : Char) : Bool := decide (48 ≤ c.toNat) && decide (c.toNat ≤ 57)

/-- Function `isalpha` of `<ctype.h>` in the C locale. -/
def isalpha (c : Char) : Bool :=
  (decide (65 ≤ c.toNat) && decide (c.toNat ≤ 90)) || (decide (97 ≤ c.toNat) && decide (c.toNat ≤ 122))

/-- Function `isalnum` of `<ctype.h>` in the C locale. -/
def isalnum (c : Char) : Bool := isalpha c || isdigit c

/-- The text of a C string stored in `s`: everything before the first terminator. -/
def c_str (s : List Char) : List Char := s.takeWhile (fun c => c != NUL)

/-- Function `strlen`. -/
def strlen (s : List Char) : Nat := (c_str s).length

/-- Function `strdup`: a copy of the text before the terminator. -/
def strdup (s : List Char) : List Char := c_str s

/-- The idiom `malloc(length + 1); strncpy(lexeme, from, length); lexeme[length] = 0`
used at lines 144-151, 175-182 and 295-302: the C string left in `lexeme` when
`from` points at offset `first` of the buffer. -/
def copy_slice (source : List Char) (first length : Nat) : List Char :=
  c_str ((source.drop first).take length)

/-- Function `lexer_init` (lines 13-26). -/
def lexer_init (source_code : List Char) : Lexer :=
  { start := source_code
    current := 0
    line_start := 0
    token_count := 0
    token_capacity := 0
    line_number := 1
    tokens := []
    locations := [] }

/-- The expression `*lexer->current`. -/
def peek (lexer : Lexer) : Char := lexer.start.getD lexer.current NUL

/-- The expression `*(lexer->current + 1)`. -/
def peek_next (lexer : Lexer) : Char := lexer.start.getD (lexer.current + 1) NUL

/-- Function `ensure_capacity` (lines 267-284); allocation failure exits the
process and is not modelled, nor is overflow of `token_capacity * 2`.  Both
arrays hold `token_capacity` slots in every state reached from `lexer_init`
(`Lexer.WF` below), so `realloc` to `new_capacity` slots adds
`new_capacity - length` fresh ones. -/
def ensure_capacity (lexer : Lexer) : Lexer :=
  if lexer.token_count ≥ lexer.token_capacity then
    let new_capacity := if lexer.token_capacity = 0 then 8 else lexer.token_capacity * 2
    { lexer with
      tokens := lexer.tokens ++ List.replicate (new_capacity - lexer.tokens.length) TokenData.fresh
      locations := lexer.locations ++ List.replicate (new_capacity - lexer.locations.length) Location.fresh
      token_capacity := new_capacity }
  else lexer

/-- The `TokenData` record that `push_token` stores (lines 244-258): a non-NULL
lexeme is copied with `strdup` and measured with `strlen`. -/
def token_data (type : Token) (lexeme : Option (List Char)) : TokenData :=
  match lexeme with
  | some s => ⟨type, some (strdup s), strlen (strdup s)⟩
  | none => ⟨type, none, 0⟩

/-- The `Location` record that `push_token` stores (lines 260-262), computed
from the cursor at the time of the call.  The column `current - line_start` is
never negative there: `line_start` only ever receives `current + 1` right
before `current` is incremented. -/
def token_location (lexer : Lexer) : Location :=
  ⟨lexer.line_number, lexer.current - lexer.line_start, lexer.current⟩

/-- Function `push_token` (lines 240-265). -/
def push_token (lexer : Lexer) (type : Token) (lexeme : Option (List Char)) : Lexer :=
  let lexer := ensure_capacity lexer
  { lexer with
    tokens := lexer.tokens.set lexer.token_count (token_data type lexeme)
    locations := lexer.locations.set lexer.token_count (token_location lexer)
    token_count := lexer.token_count + 1 }

/-- A loop `while (p(*lexer->current)) lexer->current += 1;` (lines 89-91,
162-164, 169-171, 290-292).  Every `p` used is false on the terminator, so the
loop runs at most `length - current` times; `fuel` bounds the iterations. -/
def advance_while (p : Char → Bool) : Nat → Lexer → Lexer
  | 0, lexer => lexer
  | fuel + 1, lexer =>
    if p (peek lexer) then advance_while p fuel { lexer with current := lexer.current + 1 }
    else lexer

/-- Iterations left before `current` reaches the terminator. -/
def remaining (lexer : Lexer) : Nat := lexer.start.length - lexer.current

/-- The loop of lines 130-136, scanning the body of a string literal. -/
def string_loop : Nat → Lexer → Lexer
  | 0, lexer => lexer
  | fuel + 1, lexer =>
    if peek lexer != NUL && peek lexer != '\"' then
      let lexer :=
        if peek lexer = '\n' then
          { lexer with line_number := lexer.line_number + 1, line_start := lexer.current + 1 }
        else lexer
      string_loop fuel { lexer with current := lexer.current + 1 }
    else lexer

/-- The kind chosen by the `strcmp` chain of `handle_identifier` (lines 305-317). -/
def identifier_type (lexeme : List Char) : Token :=
  if lexeme = "if".toList then tok_if
  else if lexeme = "else".toList then tok_else
  else if lexeme = "while".toList then tok_while
  else if lexeme = "return".toList then tok_return
  else if lexeme = "func".toList then tok_func
  else tok_identifier

/-- Function `handle_identifier` (lines 286-321). -/
def handle_identifier (lexer : Lexer) : Lexer :=
  let identifier_start := lexer.current
  let lexer := advance_while (fun c => isalnum c || c == '_') (remaining lexer) lexer
  let length := lexer.current - identifier_start
  let lexeme := copy_slice lexer.start identifier_start length
  push_token lexer (identifier_type lexeme) (some lexeme)

/-- What the two `fprintf(stderr, ...)` calls before `return -1` report. -/
inductive Diagnostic where
  | unterminated_string (line : Nat)
  | invalid_character (c : Char) (line : Nat)
  deriving DecidableEq

/-- Outcome of one pass through the body of the `while` loop of `lexer_run`. -/
inductive Step where
  | next (lexer : Lexer)
  | fail (lexer : Lexer) (diag : Diagnostic)
  deriving DecidableEq

/-- The statement `lexer->current += 1` of line 199, reached by `break`. -/
def advance (lexer : Lexer) : Lexer := { lexer with current := lexer.current + 1 }

/-- The `default:` branch of the switch (lines 124-196). -/
def lexer_default (lexer : Lexer) : Step :=
  if peek lexer = '\"' then
    let lexer := { lexer with current := lexer.current + 1 }
    let string_start := lexer.current
    let lexer := string_loop (remaining lexer) lexer
    if peek lexer = NUL then
      .fail lexer (.unterminated_string lexer.line_number)
    else
      let length := lexer.current - string_start
      let lexeme := copy_slice lexer.start string_start length
      let lexer := push_token lexer tok_string (some lexeme)
      .next { lexer with current := lexer.current + 1 }
  else if isdigit (peek lexer) then
    let number_start := lexer.current
    let lexer := advance_while isdigit (remaining lexer) lexer
    let lexer :=
      if peek lexer = '.' then
        let lexer := { lexer with current := lexer.current + 1 }
        advance_while isdigit (remaining lexer) lexer
      else lexer
    let length := lexer.current - number_start
    let lexeme := copy_slice lexer.start number_start length
    .next (push_token lexer tok_number (some lexeme))
  else if isalpha (peek lexer) then
    .next (handle_identifier lexer)
  else
    .fail lexer (.invalid_character (peek lexer) lexer.line_number)

/-- The body of the `while` loop of `lexer_run` (lines 31-199), entered with
`*lexer->current != 0`. -/
def lexer_step (lexer : Lexer) : Step :=
  match peek lexer with
  | ' ' => .next (advance lexer)
  | '\t' => .next (advance lexer)
  | '\r' => .next (advance lexer)
  | '\n' =>
    .next (advance { lexer with line_number := lexer.line_number + 1, line_start := lexer.current + 1 })
  | '(' => .next (advance (push_token lexer tok_lparen (some "(".toList)))
  | ')' => .next (advance (push_token lexer tok_rparen (some ")".toList)))
  | '{' => .next (advance (push_token lexer tok_lbrace (some "\x7b".toList)))
  | '}' => .next (advance (push_token lexer tok_rbrace (some "\x7d".toList)))
  | '[' => .next (advance (push_token lexer tok_lbracket (some "[".toList)))
  | ']' => .next (advance (push_token lexer tok_rbracket (some "]".toList)))
  | ',' => .next (advance (push_token lexer tok_comma (some ",".toList)))
  | ':' =>
    if peek_next lexer = ':' then
      let lexer := { lexer with current := lexer.current + 1 }
      .next (advance (push_token lexer tok_double_colon (some "::".toList)))
    else
      .next (advance (push_token lexer tok_colon (some ":".toList)))
  | ';' => .next (advance (push_token lexer tok_semicolon (some ";".toList)))
  | '+' => .next (advance (push_token lexer tok_plus (some "+".toList)))
  | '-' => .next (advance (push_token lexer tok_minus (some "-".toList)))
  | '*' => .next (advance (push_token lexer tok_star (some "*".toList)))
  | '/' =>
    if peek_next lexer = '/' then
      let lexer := { lexer with current := lexer.current + 2 }
      .next (advance_while (fun c => c != NUL && c != '\n') (remaining lexer) lexer)
    else
      .next (advance (push_token lexer tok_slash (some "/".toList)))
  | '=' => .next (advance (push_token lexer tok_equal (some "=".toList)))
  | '<' => .next (advance (push_token lexer tok_less_than (some "<".toList)))
  | '>' => .next (advance (push_token lexer tok_greater_than (some ">".toList)))
  | '.' => .next (advance (push_token lexer tok_period (some ".".toList)))
  | '&' => .next (advance (push_token lexer tok_ampersand (some "&".toList)))
  | '|' => .next (advance (push_token lexer tok_pipe (some "|".toList)))
  | '!' => .next (advance (push_token lexer tok_exclamation (some "!".toList)))
  | '^' => .next (advance (push_token lexer tok_caret (some "^".toList)))
  | '%' => .next (advance (push_token lexer tok_percent (some "%".toList)))
  | _ => lexer_default lexer

/-- What a call of `lexer_run` leaves behind: the value returned, the lexer
state, and the diagnostic written to `stderr` if any. -/
structure RunResult where
  ret : Int
  lexer : Lexer
  diag : Option Diagnostic
  deriving DecidableEq

/-- The `while` loop of `lexer_run` with the code after it (lines 30-204);
`fuel` bounds the number of iterations and `none` means it ran out. -/
def lexer_loop : Nat → Lexer → Option RunResult
  | 0, _ => none
  | fuel + 1, lexer =>
    if peek lexer != NUL then
      match lexer_step lexer with
      | .next lexer => lexer_loop fuel lexer
      | .fail lexer diag => some ⟨-1, lexer, some diag⟩
    else
      some ⟨0, push_token lexer tok_eof none, none⟩

/-- Function `lexer_run` (lines 28-205).  Every iteration moves `current`
forward, so `length + 1` iterations are enough. -/
def lexer_run (lexer : Lexer) : Option RunResult :=
  lexer_loop (lexer.start.length + 1) lexer

/-- The tokens the lexer holds: `tokens[0 .. token_count)`. -/
def valid_tokens (lexer : Lexer) : List TokenData := lexer.tokens.take lexer.token_count

/-- The locations the lexer holds: `locations[0 .. token_count)`. -/
def valid_locations (lexer : Lexer) : List Location := lexer.locations.take lexer.token_count

/-- Scanning a source text from scratch, as both drivers in `jam.c` do:
`lexer_init` followed by `lexer_run`. -/
def scan (source_code : List Char) : Option RunResult :=
  lexer_run (lexer_init source_code)

/-- Buffer discipline: both arrays have `token_capacity` slots and the count
does not exceed the capacity. -/
def Lexer.WF (lexer : Lexer) : Prop :=
  lexer.tokens.length = lexer.token_capacity ∧
  lexer.locations.length = lexer.token_capacity ∧
  lexer.token_count ≤ lexer.token_capacity

/-- The characters that have a `case` label of their own in the switch of
`lexer_run` (lines 32-121). -/
def case_labels : List Char := " \t\r\n()\x7b\x7d[],:;+-*/=<>.&|!^%".toList

/-- The lexer state a step leaves behind. -/
def Step.lexer : Step → Lexer
  | .next lexer => lexer
  | .fail lexer _ => lexer

/-- The order on locations used for monotonicity: offset and line both
non-decreasing. -/
def Location.le (a b : Location) : Prop := a.offset ≤ b.offset ∧ a.line ≤ b.line

/-- The state `b` is the state `a` with the cursor and the line counter moved
forward and the token buffers untouched. -/
def Lexer.Forward (a b : Lexer) : Prop :=
  b.start = a.start ∧ b.tokens = a.tokens ∧ b.locations = a.locations ∧
  b.token_count = a.token_count ∧ b.token_capacity = a.token_capacity ∧
  a.current ≤ b.current ∧ a.line_number ≤ b.line_number

/-- Loop invariant of `lexer_run`: the buffers are well formed, every token
held so far is not the end marker and carries a lexeme, the locations are
sorted, and none lies beyond the cursor or the line counter. -/
structure Lexer.Inv (lexer : Lexer) : Prop where
  wf : lexer.WF
  tokens_ok : ∀ t ∈ valid_tokens lexer, t.type ≠ tok_eof ∧ t.lexeme ≠ none
  sorted : (valid_locations lexer).Pairwise Location.le
  bound : ∀ l ∈ valid_locations lexer, l.offset ≤ lexer.current ∧ l.line ≤ lexer.line_number

/-- The lexer sits at offset `pos` of the source `src`, on line `ln` whose first
character is at offset `ls`, with well-formed buffers holding the tokens `toks`
at the locations `locs`. -/
structure Lexer.At (lexer : Lexer) (src : List Char) (pos ls ln : Nat)
    (toks : List TokenData) (locs : List Location) : Prop where
  wf : lexer.WF
  start_eq : lexer.start = src
  current_eq : lexer.current = pos
  line_start_eq : lexer.line_start = ls
  line_number_eq : lexer.line_number = ln
  tokens_eq : valid_tokens lexer = toks
  locations_eq : valid_locations lexer = locs

/-- The token stream of `n` colons: `n / 2` double colons and, when `n` is odd,
one single colon. -/
def colon_tokens (n : Nat) : List TokenData :=
  List.replicate (n / 2) ⟨tok_double_colon, some "::".toList, 2⟩ ++
    (if n % 2 = 1 then [⟨tok_colon, some ":".toList, 1⟩] else [])

/-- One pass through the loop body moved the cursor strictly forward without
leaving the buffer (a failing pass returns at once). -/
def Step.Progress (a : Lexer) : Step → Prop
  | .next b => b.start = a.start ∧ a.current < b.current ∧ b.current ≤ a.start.length
  | .fail _ _ => True

/-- The kinds whose lexeme is copied out of the source buffer: string, number,
identifier and the five keywords. -/
def is_lexeme_kind (type : Token) : Bool :=
  match type with
  | tok_string | tok_number | tok_identifier
  | tok_if | tok_else | tok_while | tok_func | tok_return => true
  | _ => false

/-- The elementary state changes that `lexer_run` is made of: moving the cursor
over one character that is neither the terminator nor a newline, moving it over
a newline with the line bookkeeping of lines 39-40 and 132-133, pushing a token
with a fixed lexeme, and pushing a token whose lexeme is the slice of the source
from offset `a` to the cursor. -/
inductive Move : Lexer → Lexer → Prop
  | skip (lx : Lexer) (h0 : peek lx ≠ NUL) (hn : peek lx ≠ '\n') :
      Move lx { lx with current := lx.current + 1 }
  | newline (lx : Lexer) (h : peek lx = '\n') :
      Move lx { lx with line_number := lx.line_number + 1, line_start := lx.current + 1,
                        current := lx.current + 1 }
  | fixed (lx : Lexer) (ty : Token) (s : Option (List Char)) (hk : is_lexeme_kind ty = false) :
      Move lx (push_token lx ty s)
  | slice (lx : Lexer) (ty : Token) (a : Nat) (ha : a ≤ lx.current)
      (hk : is_lexeme_kind ty = true) :
      Move lx (push_token lx ty (some (copy_slice lx.start a (lx.current - a))))

/-- A finite sequence of elementary state changes. -/
def Moves (a b : Lexer) : Prop := Relation.ReflTransGen Move a b

/-- Index just past the last newline of `s`, or 0 when `s` has no newline:
the length of `s` minus the length of its last, unfinished line. -/
def line_begin (s : List Char) : Nat :=
  s.length - (s.reverse.takeWhile (fun c => c != '\n')).length

/-- A location agrees with the text before its offset: the line is 1 plus the
number of newlines there, the column counts from the last of them. -/
def Location.Sound (src : List Char) (loc : Location) : Prop :=
  loc.offset ≤ src.length ∧
  loc.line = 1 + (src.take loc.offset).count '\n' ∧
  loc.column = loc.offset - line_begin (src.take loc.offset)

/-- A token of a kind that copies its lexeme out of the source holds the
`length` characters of the source that end at the recorded offset. -/
def TokenData.Sound (src : List Char) (t : TokenData) (loc : Location) : Prop :=
  is_lexeme_kind t.type = true →
    t.length ≤ loc.offset ∧
    t.lexeme = some ((src.take loc.offset).drop (loc.offset - t.length))

/-- Invariant of the scan relating the state to the text before the cursor. -/
structure Lexer.Sound (lexer : Lexer) : Prop where
  wf : lexer.WF
  in_range : lexer.current ≤ lexer.start.length
  no_nul : ∀ x ∈ lexer.start.take lexer.current, x ≠ NUL
  line_ok : lexer.line_number = 1 + (lexer.start.take lexer.current).count '\n'
  line_start_ok : lexer.line_start = line_begin (lexer.start.take lexer.current)
  locs_ok : ∀ loc ∈ valid_locations lexer, loc.Sound lexer.start
  toks_ok : ∀ p ∈ (valid_tokens lexer).zip (valid_locations lexer), p.1.Sound lexer.start p.2

/-- Capacity reached by the doubling rule of `ensure_capacity`: 0 while nothing
was pushed, afterwards a value `8 * 2 ^ j` that is either 8 or less than twice
the count. -/
def Lexer.CapOK (lexer : Lexer) : Prop :=
  lexer.WF ∧
  ((lexer.token_count = 0 ∧ lexer.token_capacity = 0) ∨
   (1 ≤ lexer.token_count ∧
     ∃ j, lexer.token_capacity = 8 * 2 ^ j ∧ (j = 0 ∨ lexer.token_capacity < 2 * lexer.token_count)))

/-- A sequence of `push_token` calls, one per entry of `args`. -/
def push_tokens (lexer : Lexer) (args : List (Token × Option (List Char))) : Lexer :=
  args.foldl (fun lx a => push_token lx a.1 a.2) lexer

/-- The characters a plain prefix is made of: ASCII letters and digits, space,
tab, carriage return and newline. -/
def is_plain (c : Char) : Prop :=
  isalpha c = true ∨ isdigit c = true ∨ c = ' ' ∨ c = '\t' ∨ c = '\r' ∨ c = '\n'

instance is_plain_decidable (c : Char) : Decidable (is_plain c) := by
  unfold is_plain
  infer_instance

/-- A character at which both a word and a number end: neither alphanumeric,
nor an underscore, nor a dot. -/
def is_stopper (c : Char) : Prop := (isalnum c || c == '_') = false ∧ c ≠ '.'

/-- Function `token_type_to_string` (lines 323-391). -/
def token_type_to_string (type : Token) : String :=
  match type with
  | tok_eof => "EOF"
  | tok_lparen => "Left Parenthesis"
  | tok_rparen => "Right Parenthesis"
  | tok_lbrace => "Left Brace"
  | tok_rbrace => "Right Brace"
  | tok_lbracket => "Left Bracket"
  | tok_rbracket => "Right Bracket"
  | tok_comma => "Comma"
  | tok_colon => "Colon"
  | tok_semicolon => "Semicolon"
  | tok_plus => "Plus"
  | tok_minus => "Minus"
  | tok_star => "Star"
  | tok_slash => "Slash"
  | tok_equal => "Equal"
  | tok_ampersand => "Ampersand"
  | tok_pipe => "Pipe"
  | tok_exclamation => "Exclamation"
  | tok_caret => "Caret"
  | tok_percent => "Percent"
  | tok_less_than => "Less Than"
  | tok_greater_than => "Greater Than"
  | tok_period => "Period"
  | tok_if => "If Keyword"
  | tok_else => "Else Keyword"
  | tok_while => "While Keyword"
  | tok_func => "Func Keyword"
  | tok_return => "Return Keyword"
  | tok_string => "String Literal"
  | tok_identifier => "Identifier"
  | tok_number => "Number Literal"
  | _ => "Unknown Token Type"

/-- The 22 single-character punctuation marks of the spec, each with the kind
it is to produce. -/
def punctuation_table : List (Char × Token) :=
  [('(', tok_lparen), (')', tok_rparen), ('\x7b', tok_lbrace), ('\x7d', tok_rbrace),
   ('[', tok_lbracket), (']', tok_rbracket), (',', tok_comma), (':', tok_colon),
   (';', tok_semicolon), ('+', tok_plus), ('-', tok_minus), ('*', tok_star),
   ('/', tok_slash), ('=', tok_equal), ('<', tok_less_than), ('>', tok_greater_than),
   ('.', tok_period), ('&', tok_ampersand), ('|', tok_pipe), ('!', tok_exclamation),
   ('^', tok_caret), ('%', tok_percent)]

/-- The kinds other than `tok_double_colon`: those with a `case` of their own
in `token_type_to_string`. -/
def named_kinds : List Token :=
  [tok_eof, tok_lparen, tok_rparen, tok_lbrace, tok_rbrace, tok_lbracket, tok_rbracket,
   tok_comma, tok_colon, tok_semicolon, tok_plus, tok_minus, tok_star, tok_slash, tok_equal,
   tok_less_than, tok_greater_than, tok_period, tok_ampersand, tok_pipe, tok_exclamation,
   tok_caret, tok_percent, tok_if, tok_else, tok_while, tok_func, tok_return, tok_string,
   tok_identifier, tok_number]

/-! ## Buffer lemmas -/

theorem take_succ_set {α : Type} (l : List α) (n : Nat) (d : α) (h : n < l.length) :
    (l.set n d).take (n + 1) = l.take n ++ [d] := by
  induction l generalizing n with
  | nil => simp at h
  | cons a l ih =>
    cases n with
    | zero => simp
    | succ n =>
      simp only [List.length_cons, Nat.add_lt_add_iff_right] at h
      simp [ih n h]

theorem take_append_replicate {α : Type} (l : List α) (n k : Nat) (d : α) (h : n ≤ l.length) :
    (l ++ List.replicate k d).take n = l.take n := by
  rw [List.take_append_of_le_length h]

@[simp] theorem ensure_capacity_start (lx : Lexer) : (ensure_capacity lx).start = lx.start := by
  unfold ensure_capacity; split <;> rfl

@[simp] theorem ensure_capacity_current (lx : Lexer) : (ensure_capacity lx).current = lx.current := by
  unfold ensure_capacity; split <;> rfl

@[simp] theorem ensure_capacity_line_start (lx : Lexer) :
    (ensure_capacity lx).line_start = lx.line_start := by
  unfold ensure_capacity; split <;> rfl

@[simp] theorem ensure_capacity_line_number (lx : Lexer) :
    (ensure_capacity lx).line_number = lx.line_number := by
  unfold ensure_capacity; split <;> rfl

@[simp] theorem ensure_capacity_token_count (lx : Lexer) :
    (ensure_capacity lx).token_count = lx.token_count := by
  unfold ensure_capacity; split <;> rfl

theorem ensure_capacity_room (lx : Lexer) (h : lx.WF) :
    (ensure_capacity lx).WF ∧ lx.token_count < (ensure_capacity lx).token_capacity := by
  obtain ⟨h1, h2, h3⟩ := h
  unfold ensure_capacity Lexer.WF
  split
  · simp only [List.length_append, List.length_replicate]
    split <;> omega
  · exact ⟨⟨h1, h2, h3⟩, by omega⟩

theorem ensure_capacity_valid_tokens (lx : Lexer) (h : lx.WF) :
    (ensure_capacity lx).tokens.take lx.token_count = lx.tokens.take lx.token_count := by
  obtain ⟨h1, h2, h3⟩ := h
  unfold ensure_capacity
  split
  · exact take_append_replicate _ _ _ _ (by omega)
  · rfl

theorem ensure_capacity_valid_locations (lx : Lexer) (h : lx.WF) :
    (ensure_capacity lx).locations.take lx.token_count = lx.locations.take lx.token_count := by
  obtain ⟨h1, h2, h3⟩ := h
  unfold ensure_capacity
  split
  · exact take_append_replicate _ _ _ _ (by omega)
  · rfl

@[simp] theorem push_token_start (lx : Lexer) (ty : Token) (s : Option (List Char)) :
    (push_token lx ty s).start = lx.start := by simp [push_token]

@[simp] theorem push_token_current (lx : Lexer) (ty : Token) (s : Option (List Char)) :
    (push_token lx ty s).current = lx.current := by simp [push_token]

@[simp] theorem push_token_line_start (lx : Lexer) (ty : Token) (s : Option (List Char)) :
    (push_token lx ty s).line_start = lx.line_start := by simp [push_token]

@[simp] theorem push_token_line_number (lx : Lexer) (ty : Token) (s : Option (List Char)) :
    (push_token lx ty s).line_number = lx.line_number := by simp [push_token]

@[simp] theorem push_token_token_count (lx : Lexer) (ty : Token) (s : Option (List Char)) :
    (push_token lx ty s).token_count = lx.token_count + 1 := by simp [push_token]

@[simp] theorem token_location_ensure_capacity (lx : Lexer) :
    token_location (ensure_capacity lx) = token_location lx := by simp [token_location]

theorem push_token_WF (lx : Lexer) (ty : Token) (s : Option (List Char)) (h : lx.WF) :
    (push_token lx ty s).WF := by
  obtain ⟨⟨h1, h2, _⟩, h4⟩ := ensure_capacity_room lx h
  simp only [Lexer.WF, push_token, List.length_set, ensure_capacity_token_count]
  exact ⟨h1, h2, h4⟩

theorem push_token_valid_tokens (lx : Lexer) (ty : Token) (s : Option (List Char)) (h : lx.WF) :
    valid_tokens (push_token lx ty s) = valid_tokens lx ++ [token_data ty s] := by
  obtain ⟨⟨h1, _, _⟩, h4⟩ := ensure_capacity_room lx h
  simp only [valid_tokens, push_token, ensure_capacity_token_count]
  rw [take_succ_set _ _ _ (by omega), ensure_capacity_valid_tokens lx h]

theorem push_token_valid_locations (lx : Lexer) (ty : Token) (s : Option (List Char))
    (h : lx.WF) :
    valid_locations (push_token lx ty s) = valid_locations lx ++ [token_location lx] := by
  obtain ⟨⟨_, h2, _⟩, h4⟩ := ensure_capacity_room lx h
  simp only [valid_locations, push_token, ensure_capacity_token_count,
    token_location_ensure_capacity]
  rw [take_succ_set _ _ _ (by omega), ensure_capacity_valid_locations lx h]

theorem lexer_init_WF (src : List Char) : (lexer_init src).WF := by
  simp [Lexer.WF, lexer_init]

/-! ## The loop invariant -/

theorem Lexer.Forward.refl (a : Lexer) : a.Forward a :=
  ⟨rfl, rfl, rfl, rfl, rfl, Nat.le_refl _, Nat.le_refl _⟩

theorem Lexer.Forward.trans {a b c : Lexer} (h1 : a.Forward b) (h2 : b.Forward c) : a.Forward c := by
  obtain ⟨a1, a2, a3, a4, a5, a6, a7⟩ := h1
  obtain ⟨b1, b2, b3, b4, b5, b6, b7⟩ := h2
  exact ⟨b1.trans a1, b2.trans a2, b3.trans a3, b4.trans a4, b5.trans a5, by omega, by omega⟩

theorem Lexer.Forward.current (a : Lexer) (k : Nat) : a.Forward { a with current := a.current + k } :=
  ⟨rfl, rfl, rfl, rfl, rfl, Nat.le_add_right _ _, Nat.le_refl _⟩

theorem Lexer.Forward.newline (a : Lexer) (ls : Nat) :
    a.Forward { a with line_number := a.line_number + 1, line_start := ls } :=
  ⟨rfl, rfl, rfl, rfl, rfl, Nat.le_refl _, Nat.le_add_right _ _⟩

theorem Lexer.Forward.advance (a : Lexer) : a.Forward (advance a) := Lexer.Forward.current a 1

theorem advance_while_forward (p : Char → Bool) (fuel : Nat) (lx : Lexer) :
    lx.Forward (advance_while p fuel lx) := by
  induction fuel generalizing lx with
  | zero => exact Lexer.Forward.refl lx
  | succ n ih =>
    unfold advance_while
    split
    · exact Lexer.Forward.trans (Lexer.Forward.current lx 1) (ih _)
    · exact Lexer.Forward.refl lx

theorem string_loop_forward (fuel : Nat) (lx : Lexer) : lx.Forward (string_loop fuel lx) := by
  induction fuel generalizing lx with
  | zero => exact Lexer.Forward.refl lx
  | succ n ih =>
    unfold string_loop
    split
    · split
      · exact Lexer.Forward.trans (Lexer.Forward.trans (Lexer.Forward.newline lx _) (Lexer.Forward.current _ 1)) (ih _)
      · exact Lexer.Forward.trans (Lexer.Forward.current lx 1) (ih _)
    · exact Lexer.Forward.refl lx

theorem Lexer.Inv.forward {a b : Lexer} (h : a.Inv) (f : a.Forward b) : b.Inv := by
  obtain ⟨f1, f2, f3, f4, f5, f6, f7⟩ := f
  have ht : valid_tokens b = valid_tokens a := by simp [valid_tokens, f2, f4]
  have hl : valid_locations b = valid_locations a := by simp [valid_locations, f3, f4]
  refine ⟨?_, ?_, ?_, ?_⟩
  · have := h.wf
    simp only [Lexer.WF] at this ⊢
    rw [f2, f3, f4, f5]; exact this
  · rw [ht]; exact h.tokens_ok
  · rw [hl]; exact h.sorted
  · rw [hl]; intro l hm
    have := h.bound l hm
    omega

theorem Lexer.Inv.push {lx : Lexer} (h : lx.Inv) (ty : Token) (s : List Char) (hty : ty ≠ tok_eof) :
    (push_token lx ty (some s)).Inv := by
  refine ⟨push_token_WF lx ty _ h.wf, ?_, ?_, ?_⟩
  · rw [push_token_valid_tokens lx ty _ h.wf]
    intro t ht
    rcases List.mem_append.mp ht with ht | ht
    · exact h.tokens_ok t ht
    · simp only [List.mem_singleton] at ht
      subst ht
      simp [token_data, hty]
  · rw [push_token_valid_locations lx ty _ h.wf, List.pairwise_append]
    refine ⟨h.sorted, List.pairwise_singleton _ _, ?_⟩
    intro a ha b hb
    simp only [List.mem_singleton] at hb
    subst hb
    exact h.bound a ha
  · rw [push_token_valid_locations lx ty _ h.wf]
    intro l hl
    rcases List.mem_append.mp hl with hl | hl
    · simpa using h.bound l hl
    · simp only [List.mem_singleton] at hl
      subst hl
      simp [token_location]

theorem lexer_init_Inv (src : List Char) : (lexer_init src).Inv := by
  refine ⟨lexer_init_WF src, ?_, ?_, ?_⟩ <;> simp [valid_tokens, valid_locations, lexer_init]

theorem handle_identifier_Inv {lx : Lexer} (h : lx.Inv) : (handle_identifier lx).Inv := by
  unfold handle_identifier
  have h1 := h.forward (advance_while_forward (fun c => isalnum c || c == '_') (remaining lx) lx)
  dsimp only
  apply Lexer.Inv.push h1
  unfold identifier_type
  split_ifs <;> simp

theorem lexer_default_Inv {lx : Lexer} (h : lx.Inv) : (lexer_default lx).lexer.Inv := by
  unfold lexer_default
  dsimp only
  split_ifs with h1 h2 h3 h4 h5
  · exact h.forward (Lexer.Forward.trans (Lexer.Forward.current lx 1) (string_loop_forward _ _))
  · have hs := h.forward (Lexer.Forward.trans (Lexer.Forward.current lx 1)
      (string_loop_forward (remaining { lx with current := lx.current + 1 }) _))
    exact (hs.push tok_string _ (by simp)).forward (Lexer.Forward.current _ 1)
  · refine Lexer.Inv.push ?_ tok_number _ (by simp)
    exact h.forward (Lexer.Forward.trans (advance_while_forward _ _ _)
      (Lexer.Forward.trans (Lexer.Forward.current _ 1) (advance_while_forward _ _ _)))
  · refine Lexer.Inv.push ?_ tok_number _ (by simp)
    exact h.forward (advance_while_forward _ _ _)
  · exact handle_identifier_Inv h
  · exact h

theorem lexer_step_Inv {lx : Lexer} (h : lx.Inv) : (lexer_step lx).lexer.Inv := by
  unfold lexer_step
  split
  case h_27 => exact lexer_default_Inv h
  case h_12 =>
    split
    · exact ((h.forward (Lexer.Forward.current lx 1)).push tok_double_colon _ (by simp)).forward
        (Lexer.Forward.advance _)
    · exact (h.push _ _ (by simp)).forward (Lexer.Forward.advance _)
  case h_17 =>
    split
    · exact h.forward (Lexer.Forward.trans (Lexer.Forward.current lx 2) (advance_while_forward _ _ _))
    · exact (h.push _ _ (by simp)).forward (Lexer.Forward.advance _)
  case h_4 =>
    exact h.forward (Lexer.Forward.trans (Lexer.Forward.newline lx _) (Lexer.Forward.advance _))
  all_goals first
    | exact h.forward (Lexer.Forward.advance _)
    | exact (h.push _ _ (by simp)).forward (Lexer.Forward.advance _)

/-- Shape of the outcome of the main loop started in a state satisfying the
invariant: on success the state is an invariant state with the end marker
pushed, on failure it is an invariant state. -/
theorem lexer_loop_Inv (fuel : Nat) (lx : Lexer) (r : RunResult) (h : lx.Inv)
    (hr : lexer_loop fuel lx = some r) :
    (r.ret = 0 ∧ r.diag = none ∧ ∃ lx', lx'.Inv ∧ r.lexer = push_token lx' tok_eof none) ∨
    (r.ret = -1 ∧ r.diag ≠ none ∧ r.lexer.Inv) := by
  induction fuel generalizing lx with
  | zero => simp [lexer_loop] at hr
  | succ n ih =>
    unfold lexer_loop at hr
    split at hr
    · have hs := lexer_step_Inv h
      split at hr
      · rename_i lx' heq
        rw [heq] at hs
        exact ih lx' hs hr
      · rename_i lx' d heq
        rw [heq] at hs
        change lx'.Inv at hs
        simp only [Option.some.injEq] at hr
        subst hr
        exact Or.inr ⟨rfl, by simp, hs⟩
    · simp only [Option.some.injEq] at hr
      subst hr
      exact Or.inl ⟨rfl, rfl, lx, h, rfl⟩

/-- Every run of `scan` starts from a state satisfying the invariant. -/
theorem scan_shape (src : List Char) (r : RunResult) (hrun : scan src = some r) :
    (r.ret = 0 ∧ r.diag = none ∧ ∃ lx', lx'.Inv ∧ r.lexer = push_token lx' tok_eof none) ∨
    (r.ret = -1 ∧ r.diag ≠ none ∧ r.lexer.Inv) :=
  lexer_loop_Inv _ _ r (lexer_init_Inv src) hrun

theorem pairwise_consecutive {α : Type} {R : α → α → Prop} {l : List α} (h : l.Pairwise R)
    (i : Nat) (a b : α) (ha : l[i]? = some a) (hb : l[i + 1]? = some b) : R a b := by
  obtain ⟨h1, rfl⟩ := List.getElem?_eq_some.mp ha
  obtain ⟨h2, rfl⟩ := List.getElem?_eq_some.mp hb
  exact List.pairwise_iff_getElem.mp h i (i + 1) h1 h2 (Nat.lt_succ_self i)

/-! ## Claims about every scan -/

/-- C1: when `lexer_run` returns 0 the token stream is non-empty, its last token
is the end marker `tok_eof` with lexeme `NULL` and length 0, and no earlier
token has kind `tok_eof`. -/
theorem lexer_run_eof_last (src : List Char) (r : RunResult)
    (hrun : scan src = some r) (hret : r.ret = 0) :
    valid_tokens r.lexer ≠ [] ∧
    (valid_tokens r.lexer).getLast? = some ⟨tok_eof, none, 0⟩ ∧
    ∀ t ∈ (valid_tokens r.lexer).dropLast, t.type ≠ tok_eof := by
  rcases scan_shape src r hrun with ⟨_, _, lx', hinv, hlx⟩ | ⟨hneg, _, _⟩
  · rw [hlx, push_token_valid_tokens lx' _ _ hinv.wf]
    refine ⟨by simp, by simp [token_data], ?_⟩
    rw [List.dropLast_concat]
    exact fun t ht => (hinv.tokens_ok t ht).1
  · rw [hret] at hneg; exact absurd hneg (by decide)

/-- Witness for C1 on the source `x = (1)`. -/
theorem lexer_run_eof_last_witness :
    ∃ r, scan "x = (1)".toList = some r ∧ r.ret = 0 ∧
      valid_tokens r.lexer ≠ [] ∧
      (valid_tokens r.lexer).getLast? = some ⟨tok_eof, none, 0⟩ ∧
      ∀ t ∈ (valid_tokens r.lexer).dropLast, t.type ≠ tok_eof :=
  ⟨_, rfl, rfl, lexer_run_eof_last "x = (1)".toList _ rfl rfl⟩

/-- C2, as the code has it: a token held by the lexer carries a lexeme if and
only if its kind is not the end marker; punctuation and keyword tokens carry
their text just as string, number and identifier tokens do. -/
theorem lexeme_present_iff_not_eof (src : List Char) (r : RunResult)
    (hrun : scan src = some r) :
    ∀ t ∈ valid_tokens r.lexer, (t.lexeme ≠ none ↔ t.type ≠ tok_eof) := by
  rcases scan_shape src r hrun with ⟨_, _, lx', hinv, hlx⟩ | ⟨_, _, hinv⟩
  · rw [hlx, push_token_valid_tokens lx' _ _ hinv.wf]
    intro t ht
    rcases List.mem_append.mp ht with ht | ht
    · have := hinv.tokens_ok t ht
      exact ⟨fun _ => this.1, fun _ => this.2⟩
    · simp only [List.mem_singleton] at ht
      subst ht
      simp [token_data]
  · intro t ht
    have := hinv.tokens_ok t ht
    exact ⟨fun _ => this.1, fun _ => this.2⟩

/-- Witness for the amended C2 on the source `if (`. -/
theorem lexeme_present_iff_not_eof_witness :
    ∃ r, scan "if (".toList = some r ∧
      ∀ t ∈ valid_tokens r.lexer, (t.lexeme ≠ none ↔ t.type ≠ tok_eof) :=
  ⟨_, rfl, lexeme_present_iff_not_eof "if (".toList _ rfl⟩

/-- C2 as stated fails: the token stored for `(` has kind `tok_lparen` and the
token stored for `if` has kind `tok_if`, neither of them a string, number or
identifier kind, and both carry a lexeme. -/
theorem punctuation_and_keyword_carry_lexeme :
    (∃ r, scan "(".toList = some r ∧
      valid_tokens r.lexer = [⟨tok_lparen, some "(".toList, 1⟩, ⟨tok_eof, none, 0⟩]) ∧
    (∃ r, scan "if".toList = some r ∧
      valid_tokens r.lexer = [⟨tok_if, some "if".toList, 2⟩, ⟨tok_eof, none, 0⟩]) ∧
    ¬ (∀ src r, scan src = some r → ∀ t ∈ valid_tokens r.lexer,
        (t.lexeme ≠ none ↔
          (t.type = tok_string ∨ t.type = tok_number ∨ t.type = tok_identifier))) := by
  refine ⟨⟨_, rfl, rfl⟩, ⟨_, rfl, rfl⟩, ?_⟩
  intro h
  have := (h "(".toList _ rfl ⟨tok_lparen, some "(".toList, 1⟩ (by decide)).mp (by decide)
  revert this
  decide

/-- C3 on the code: the offsets recorded for `(`, `::`, `"x"` and `ab`.  The
claim asks for 1, 2, 3 and 2; the code records 0, 1, 2 and 2, because
`push_token` runs before the cursor has left a punctuation character, the
second colon, or the closing quote. -/
theorem recorded_offsets_of_witnesses :
    (∃ r, scan "(".toList = some r ∧ r.ret = 0 ∧
      (valid_tokens r.lexer).map TokenData.type = [tok_lparen, tok_eof] ∧
      (valid_locations r.lexer).map Location.offset = [0, 1]) ∧
    (∃ r, scan "::".toList = some r ∧ r.ret = 0 ∧
      (valid_tokens r.lexer).map TokenData.type = [tok_double_colon, tok_eof] ∧
      (valid_locations r.lexer).map Location.offset = [1, 2]) ∧
    (∃ r, scan "\"x\"".toList = some r ∧ r.ret = 0 ∧
      (valid_tokens r.lexer).map TokenData.type = [tok_string, tok_eof] ∧
      (valid_locations r.lexer).map Location.offset = [2, 3]) ∧
    (∃ r, scan "ab".toList = some r ∧ r.ret = 0 ∧
      (valid_tokens r.lexer).map TokenData.type = [tok_identifier, tok_eof] ∧
      (valid_locations r.lexer).map Location.offset = [2, 2]) :=
  ⟨⟨_, rfl, rfl, rfl, rfl⟩, ⟨_, rfl, rfl, rfl, rfl⟩, ⟨_, rfl, rfl, rfl, rfl⟩,
    ⟨_, rfl, rfl, rfl, rfl⟩⟩

/-- C4: after a successful scan, offsets and lines of consecutive entries of the
location array are non-decreasing. -/
theorem locations_monotone (src : List Char) (r : RunResult)
    (hrun : scan src = some r) (hret : r.ret = 0) (i : Nat) (a b : Location)
    (ha : (valid_locations r.lexer)[i]? = some a)
    (hb : (valid_locations r.lexer)[i + 1]? = some b) :
    a.offset ≤ b.offset ∧ a.line ≤ b.line := by
  rcases scan_shape src r hrun with ⟨_, _, lx', hinv, hlx⟩ | ⟨hneg, _, _⟩
  · have hp : (valid_locations r.lexer).Pairwise Location.le := by
      rw [hlx, push_token_valid_locations lx' _ _ hinv.wf, List.pairwise_append]
      refine ⟨hinv.sorted, List.pairwise_singleton _ _, ?_⟩
      intro x hx y hy
      simp only [List.mem_singleton] at hy
      subst hy
      exact hinv.bound x hx
    exact pairwise_consecutive hp i a b ha hb
  · rw [hret] at hneg; exact absurd hneg (by decide)

/-- Witness for C4: the first two locations of scanning `a` newline `(b)`. -/
theorem locations_monotone_witness :
    ∃ r a b, scan "a\n(b)".toList = some r ∧ r.ret = 0 ∧
      (valid_locations r.lexer)[0]? = some a ∧ (valid_locations r.lexer)[0 + 1]? = some b ∧
      a.offset ≤ b.offset ∧ a.line ≤ b.line :=
  ⟨_, _, _, rfl, rfl, rfl, rfl, locations_monotone "a\n(b)".toList _ rfl rfl 0 _ _ rfl rfl⟩

/-! ## Symbolic execution of the scanner on structured sources -/

theorem getD_split (pre rest : List Char) :
    (pre ++ rest).getD pre.length NUL = rest.headD NUL := by
  rw [List.getD_append_right _ _ _ _ (Nat.le_refl _), Nat.sub_self]
  cases rest <;> rfl

theorem getD_split_next (pre rest : List Char) :
    (pre ++ rest).getD (pre.length + 1) NUL = rest.tail.headD NUL := by
  rw [List.getD_append_right _ _ _ _ (Nat.le_add_right _ _), Nat.add_sub_cancel_left]
  rcases rest with _ | ⟨a, _ | ⟨b, t⟩⟩ <;> rfl

theorem peek_of_split {lx : Lexer} {pre rest : List Char} (hs : lx.start = pre ++ rest)
    (hc : lx.current = pre.length) : peek lx = rest.headD NUL := by
  rw [peek, hs, hc, getD_split]

theorem peek_next_of_split {lx : Lexer} {pre rest : List Char} (hs : lx.start = pre ++ rest)
    (hc : lx.current = pre.length) : peek_next lx = rest.tail.headD NUL := by
  rw [peek_next, hs, hc, getD_split_next]

theorem advance_while_split (p : Char → Bool) (mid : List Char) :
    ∀ (pre rest : List Char) (lx : Lexer) (fuel : Nat),
      lx.start = pre ++ (mid ++ rest) → lx.current = pre.length →
      (∀ c ∈ mid, p c = true) → p (rest.headD NUL) = false → mid.length ≤ fuel →
      advance_while p fuel lx = { lx with current := pre.length + mid.length } := by
  induction mid with
  | nil =>
    intro pre rest lx fuel hs hc _ hrest _
    have hlx : ({ lx with current := pre.length + ([] : List Char).length } : Lexer) = lx := by
      cases lx; simp_all
    rw [hlx]
    cases fuel with
    | zero => rfl
    | succ f =>
      unfold advance_while
      rw [peek_of_split hs hc, List.nil_append, hrest]
      rfl
  | cons c mid ih =>
    intro pre rest lx fuel hs hc hmid hrest hf
    cases fuel with
    | zero => simp at hf
    | succ f =>
      unfold advance_while
      rw [peek_of_split hs hc]
      have hc1 : p c = true := hmid c (List.mem_cons_self _ _)
      simp only [List.cons_append, List.headD_cons, hc1, if_true]
      rw [ih (pre ++ [c]) rest { lx with current := lx.current + 1 } f (by simp [hs])
        (by simp [hc]) (fun x hx => hmid x (List.mem_cons_of_mem _ hx)) hrest
        (by simpa using hf)]
      simp [Nat.add_assoc, Nat.add_comm 1]

theorem string_loop_split (s : List Char) :
    ∀ (pre rest : List Char) (lx : Lexer) (fuel : Nat),
      lx.start = pre ++ (s ++ rest) → lx.current = pre.length →
      (∀ c ∈ s, c ≠ NUL ∧ c ≠ '\"') →
      (rest.headD NUL = NUL ∨ rest.headD NUL = '\"') → s.length ≤ fuel →
      ∃ ls, string_loop fuel lx =
        { lx with current := pre.length + s.length,
                  line_number := lx.line_number + s.count '\n',
                  line_start := ls } := by
  induction s with
  | nil =>
    intro pre rest lx fuel hs hc _ hrest _
    refine ⟨lx.line_start, ?_⟩
    have hlx : ({ lx with
        current := pre.length + ([] : List Char).length
        line_number := lx.line_number + ([] : List Char).count '\n'
        line_start := lx.line_start } : Lexer) = lx := by
      cases lx; simp_all
    rw [hlx]
    cases fuel with
    | zero => rfl
    | succ f =>
      unfold string_loop
      rw [peek_of_split hs hc, List.nil_append]
      rcases hrest with h | h <;> rw [h] <;> rfl
  | cons c s ih =>
    intro pre rest lx fuel hs hc hmid hrest hf
    cases fuel with
    | zero => simp at hf
    | succ f =>
      have hc1 := hmid c (List.mem_cons_self _ _)
      unfold string_loop
      rw [peek_of_split hs hc]
      have hcond : (c != NUL && c != '\"') = true := by simp [hc1.1, hc1.2]
      simp only [List.cons_append, List.headD_cons]
      rw [if_pos hcond]
      by_cases hnl : c = '\n'
      · subst hnl
        obtain ⟨ls, hls⟩ := ih (pre ++ ['\n']) rest
          { lx with line_number := lx.line_number + 1, line_start := lx.current + 1,
                    current := lx.current + 1 } f (by simp [hs])
          (by simp [hc]) (fun x hx => hmid x (List.mem_cons_of_mem _ hx)) hrest
          (by simpa using hf)
        refine ⟨ls, ?_⟩
        simp only [if_true]
        rw [hls]
        simp [Nat.add_assoc, Nat.add_comm 1]
      · obtain ⟨ls, hls⟩ := ih (pre ++ [c]) rest { lx with current := lx.current + 1 } f
          (by simp [hs]) (by simp [hc]) (fun x hx => hmid x (List.mem_cons_of_mem _ hx)) hrest
          (by simpa using hf)
        refine ⟨ls, ?_⟩
        simp only [hnl, if_false]
        rw [hls]
        have : ¬ ('\n' = c) := fun h => hnl h.symm
        simp [Nat.add_assoc, Nat.add_comm 1, List.count_cons, this]

theorem Lexer.At.push_at {lx : Lexer} {src : List Char} {pos ls ln : Nat} {toks : List TokenData}
    {locs : List Location} (h : lx.At src pos ls ln toks locs) (ty : Token)
    (s : Option (List Char)) :
    (push_token lx ty s).At src pos ls ln (toks ++ [token_data ty s])
      (locs ++ [⟨ln, pos - ls, pos⟩]) := by
  refine ⟨push_token_WF lx ty s h.wf, ?_, ?_, ?_, ?_, ?_, ?_⟩
  · simp [h.start_eq]
  · simp [h.current_eq]
  · simp [h.line_start_eq]
  · simp [h.line_number_eq]
  · rw [push_token_valid_tokens lx ty s h.wf, h.tokens_eq]
  · rw [push_token_valid_locations lx ty s h.wf, h.locations_eq, token_location,
      h.current_eq, h.line_start_eq, h.line_number_eq]

theorem Lexer.At.cursor {lx : Lexer} {src : List Char} {pos ls ln : Nat} {toks : List TokenData}
    {locs : List Location} (h : lx.At src pos ls ln toks locs) (pos' ls' ln' : Nat) :
    ({ lx with current := pos', line_start := ls', line_number := ln' } : Lexer).At
      src pos' ls' ln' toks locs :=
  ⟨h.wf, h.start_eq, rfl, rfl, rfl, h.tokens_eq, h.locations_eq⟩

theorem lexer_init_At (src : List Char) : (lexer_init src).At src 0 0 1 [] [] :=
  ⟨lexer_init_WF src, rfl, rfl, rfl, rfl, rfl, rfl⟩

theorem lexer_loop_next {lx lx' : Lexer} (hp : peek lx ≠ NUL) (hs : lexer_step lx = .next lx')
    (f : Nat) : lexer_loop (f + 1) lx = lexer_loop f lx' := by
  rw [lexer_loop, if_pos (by simpa using hp), hs]

theorem lexer_loop_fail {lx lx' : Lexer} {d : Diagnostic} (hp : peek lx ≠ NUL)
    (hs : lexer_step lx = .fail lx' d) (f : Nat) :
    lexer_loop (f + 1) lx = some ⟨-1, lx', some d⟩ := by
  rw [lexer_loop, if_pos (by simpa using hp), hs]

theorem lexer_loop_done {lx : Lexer} (hp : peek lx = NUL) (f : Nat) :
    lexer_loop (f + 1) lx = some ⟨0, push_token lx tok_eof none, none⟩ := by
  rw [lexer_loop, if_neg (by simp [hp])]

/-- More fuel does not change the outcome of the main loop. -/
theorem lexer_loop_mono {f : Nat} : ∀ {lx : Lexer} {r : RunResult},
    lexer_loop f lx = some r → ∀ f', f ≤ f' → lexer_loop f' lx = some r := by
  induction f with
  | zero => intro lx r h; simp [lexer_loop] at h
  | succ n ih =>
    intro lx r h f' hf
    obtain ⟨m, rfl⟩ : ∃ m, f' = m + 1 := ⟨f' - 1, by omega⟩
    unfold lexer_loop at h ⊢
    split
    · rename_i hp
      rw [if_pos hp] at h
      split
      · rename_i lx' heq
        rw [heq] at h
        exact ih h m (by omega)
      · rename_i lx' d heq
        rw [heq] at h
        exact h
    · rename_i hp
      rw [if_neg hp] at h
      exact h

theorem lexer_step_default {lx : Lexer} (h : peek lx ∉ case_labels) :
    lexer_step lx = lexer_default lx := by
  unfold lexer_step
  split <;> first
    | (exfalso; apply h; rename_i heq; rw [heq]; decide)
    | rfl

theorem isdigit_not_case_label {c : Char} (h : isdigit c = true) : c ∉ case_labels := by
  intro hmem
  have hall : ∀ x ∈ case_labels, isdigit x = false := by decide
  rw [hall c hmem] at h
  exact Bool.noConfusion h

theorem isalpha_not_case_label {c : Char} (h : isalpha c = true) : c ∉ case_labels := by
  intro hmem
  have hall : ∀ x ∈ case_labels, isalpha x = false := by decide
  rw [hall c hmem] at h
  exact Bool.noConfusion h

theorem lexer_step_space {lx : Lexer} (h : peek lx = ' ') :
    lexer_step lx = .next (advance lx) := by
  unfold lexer_step; rw [h]; rfl

theorem lexer_step_newline {lx : Lexer} (h : peek lx = '\n') :
    lexer_step lx = .next (advance
      { lx with line_number := lx.line_number + 1, line_start := lx.current + 1 }) := by
  unfold lexer_step; rw [h]; rfl

theorem lexer_step_period {lx : Lexer} (h : peek lx = '.') :
    lexer_step lx = .next (advance (push_token lx tok_period (some ".".toList))) := by
  unfold lexer_step; rw [h]; rfl

theorem lexer_step_colon {lx : Lexer} (h : peek lx = ':') :
    lexer_step lx =
      if peek_next lx = ':' then
        .next (advance (push_token { lx with current := lx.current + 1 } tok_double_colon
          (some "::".toList)))
      else .next (advance (push_token lx tok_colon (some ":".toList))) := by
  unfold lexer_step; rw [h]; rfl

theorem lexer_step_slash {lx : Lexer} (h : peek lx = '/') :
    lexer_step lx =
      if peek_next lx = '/' then
        .next (advance_while (fun c => c != NUL && c != '\n')
          (remaining { lx with current := lx.current + 2 }) { lx with current := lx.current + 2 })
      else .next (advance (push_token lx tok_slash (some "/".toList))) := by
  unfold lexer_step; rw [h]; rfl

theorem Lexer.At.set_current {lx : Lexer} {src : List Char} {pos ls ln : Nat}
    {toks : List TokenData} {locs : List Location} (h : lx.At src pos ls ln toks locs)
    (c : Nat) : ({ lx with current := c } : Lexer).At src c ls ln toks locs :=
  ⟨h.wf, h.start_eq, rfl, h.line_start_eq, h.line_number_eq, h.tokens_eq, h.locations_eq⟩

theorem Lexer.At.advance_at {lx : Lexer} {src : List Char} {pos ls ln : Nat}
    {toks : List TokenData} {locs : List Location} (h : lx.At src pos ls ln toks locs) :
    (advance lx).At src (pos + 1) ls ln toks locs :=
  ⟨h.wf, h.start_eq, by simp [Jam.advance, h.current_eq], h.line_start_eq, h.line_number_eq,
    h.tokens_eq, h.locations_eq⟩

theorem Lexer.At.peek_eq {lx : Lexer} {src : List Char} {pos ls ln : Nat}
    {toks : List TokenData} {locs : List Location} (h : lx.At src pos ls ln toks locs)
    {pre rest : List Char} (hsrc : src = pre ++ rest) (hpos : pos = pre.length) :
    Jam.peek lx = rest.headD NUL :=
  peek_of_split (h.start_eq.trans hsrc) (h.current_eq.trans hpos)

theorem Lexer.At.peek_next_eq {lx : Lexer} {src : List Char} {pos ls ln : Nat}
    {toks : List TokenData} {locs : List Location} (h : lx.At src pos ls ln toks locs)
    {pre rest : List Char} (hsrc : src = pre ++ rest) (hpos : pos = pre.length) :
    Jam.peek_next lx = rest.tail.headD NUL :=
  peek_next_of_split (h.start_eq.trans hsrc) (h.current_eq.trans hpos)

theorem c_str_eq_self {w : List Char} (h : ∀ x ∈ w, x ≠ NUL) : c_str w = w := by
  unfold c_str
  rw [List.takeWhile_eq_self_iff]
  intro x hx
  simpa using h x hx

theorem copy_slice_split (pre w rest : List Char) (h : ∀ x ∈ w, x ≠ NUL) :
    copy_slice (pre ++ (w ++ rest)) pre.length w.length = w := by
  unfold copy_slice
  rw [List.drop_left, List.take_left, c_str_eq_self h]

theorem token_data_some (ty : Token) {w : List Char} (h : ∀ x ∈ w, x ≠ NUL) :
    token_data ty (some w) = ⟨ty, some w, w.length⟩ := by
  simp [token_data, strdup, strlen, c_str_eq_self h]

theorem remaining_split {lx : Lexer} {pre mid rest : List Char}
    (hs : lx.start = pre ++ (mid ++ rest)) (hc : lx.current = pre.length) :
    mid.length ≤ remaining lx := by
  simp [remaining, hs, hc]

theorem ne_NUL_of_pred {p : Char → Bool} (hp : p NUL = false) {w : List Char}
    (h : ∀ x ∈ w, p x = true) : ∀ x ∈ w, x ≠ NUL := by
  intro x hx hn
  have hx' := h x hx
  rw [hn, hp] at hx'
  exact Bool.noConfusion hx'

theorem handle_identifier_split {lx : Lexer} {pre w rest : List Char}
    (hs : lx.start = pre ++ (w ++ rest)) (hc : lx.current = pre.length)
    (hw : ∀ x ∈ w, (isalnum x || x == '_') = true)
    (hrest : (isalnum (rest.headD NUL) || rest.headD NUL == '_') = false) :
    handle_identifier lx =
      push_token { lx with current := pre.length + w.length } (identifier_type w) (some w) := by
  unfold handle_identifier
  dsimp only
  rw [advance_while_split (fun c => isalnum c || c == '_') w pre rest lx (remaining lx) hs hc hw
    hrest (remaining_split hs hc)]
  dsimp only
  have hcopy : copy_slice lx.start lx.current (pre.length + w.length - lx.current) = w := by
    rw [hs, hc, Nat.add_sub_cancel_left]
    exact copy_slice_split pre w rest (ne_NUL_of_pred (by decide) hw)
  rw [hcopy]

theorem Lexer.At.congr {lx : Lexer} {src : List Char} {pos ls ln pos' ls' ln' : Nat}
    {toks toks' : List TokenData} {locs locs' : List Location}
    (h : lx.At src pos ls ln toks locs) (h1 : pos = pos') (h2 : ls = ls') (h3 : ln = ln')
    (h4 : toks = toks') (h5 : locs = locs') : lx.At src pos' ls' ln' toks' locs' := by
  subst h1 h2 h3 h4 h5
  exact h

theorem isalpha_facts {c : Char} (h : isalpha c = true) :
    c ≠ '\"' ∧ isdigit c = false ∧ (isalnum c || c == '_') = true := by
  refine ⟨?_, ?_, by simp [isalnum, h]⟩
  · rintro rfl
    exact absurd h (by decide)
  · simp only [isalpha, isdigit, Bool.or_eq_true, Bool.and_eq_true, decide_eq_true_eq,
      Bool.and_eq_false_imp] at h ⊢
    intro _
    simp only [decide_eq_false_iff_not]
    omega

theorem isdigit_facts {c : Char} (h : isdigit c = true) : c ≠ '\"' ∧ c ≠ '.' ∧ c ≠ NUL := by
  refine ⟨?_, ?_, ?_⟩ <;>
  · rintro rfl
    exact absurd h (by decide)

theorem lexer_default_identifier {lx : Lexer} (h : isalpha (peek lx) = true) :
    lexer_default lx = .next (handle_identifier lx) := by
  obtain ⟨h1, h2, _⟩ := isalpha_facts h
  unfold lexer_default
  rw [if_neg h1, if_neg (by simp [h2]), if_pos h]

theorem step_space {lx : Lexer} {src : List Char} {pos ls ln : Nat} {toks : List TokenData}
    {locs : List Location} (h : lx.At src pos ls ln toks locs) (pre rest : List Char)
    (hsrc : src = pre ++ ' ' :: rest) (hpos : pos = pre.length) :
    ∃ lx', (∀ f, lexer_loop (f + 1) lx = lexer_loop f lx') ∧
      lx'.At src (pos + 1) ls ln toks locs := by
  have hp : peek lx = ' ' := h.peek_eq hsrc hpos
  exact ⟨advance lx, lexer_loop_next (by rw [hp]; decide) (lexer_step_space hp), h.advance_at⟩

theorem step_newline {lx : Lexer} {src : List Char} {pos ls ln : Nat} {toks : List TokenData}
    {locs : List Location} (h : lx.At src pos ls ln toks locs) (pre rest : List Char)
    (hsrc : src = pre ++ '\n' :: rest) (hpos : pos = pre.length) :
    ∃ lx', (∀ f, lexer_loop (f + 1) lx = lexer_loop f lx') ∧
      lx'.At src (pos + 1) (pos + 1) (ln + 1) toks locs := by
  have hp : peek lx = '\n' := h.peek_eq hsrc hpos
  refine ⟨_, lexer_loop_next (by rw [hp]; decide) (lexer_step_newline hp), ?_⟩
  exact (h.cursor lx.current (lx.current + 1) (lx.line_number + 1)).advance_at.congr
    (by rw [h.current_eq]) (by rw [h.current_eq]) (by rw [h.line_number_eq]) rfl rfl

theorem step_period {lx : Lexer} {src : List Char} {pos ls ln : Nat} {toks : List TokenData}
    {locs : List Location} (h : lx.At src pos ls ln toks locs) (pre rest : List Char)
    (hsrc : src = pre ++ '.' :: rest) (hpos : pos = pre.length) :
    ∃ lx', (∀ f, lexer_loop (f + 1) lx = lexer_loop f lx') ∧
      lx'.At src (pos + 1) ls ln (toks ++ [⟨tok_period, some ".".toList, 1⟩])
        (locs ++ [⟨ln, pos - ls, pos⟩]) := by
  have hp : peek lx = '.' := h.peek_eq hsrc hpos
  exact ⟨_, lexer_loop_next (by rw [hp]; decide) (lexer_step_period hp),
    (h.push_at tok_period (some ".".toList)).advance_at⟩

theorem step_colon {lx : Lexer} {src : List Char} {pos ls ln : Nat} {toks : List TokenData}
    {locs : List Location} (h : lx.At src pos ls ln toks locs) (pre rest : List Char)
    (hsrc : src = pre ++ ':' :: rest) (hpos : pos = pre.length) (hrest : rest.headD NUL ≠ ':') :
    ∃ lx', (∀ f, lexer_loop (f + 1) lx = lexer_loop f lx') ∧
      lx'.At src (pos + 1) ls ln (toks ++ [⟨tok_colon, some ":".toList, 1⟩])
        (locs ++ [⟨ln, pos - ls, pos⟩]) := by
  have hp : peek lx = ':' := h.peek_eq hsrc hpos
  have hn : peek_next lx = rest.headD NUL := h.peek_next_eq hsrc hpos
  have hstep := lexer_step_colon hp
  rw [if_neg (by rw [hn]; exact hrest)] at hstep
  exact ⟨_, lexer_loop_next (by rw [hp]; decide) hstep,
    (h.push_at tok_colon (some ":".toList)).advance_at⟩

theorem step_double_colon {lx : Lexer} {src : List Char} {pos ls ln : Nat}
    {toks : List TokenData} {locs : List Location} (h : lx.At src pos ls ln toks locs)
    (pre rest : List Char) (hsrc : src = pre ++ ':' :: ':' :: rest) (hpos : pos = pre.length) :
    ∃ lx', (∀ f, lexer_loop (f + 1) lx = lexer_loop f lx') ∧
      lx'.At src (pos + 2) ls ln (toks ++ [⟨tok_double_colon, some "::".toList, 2⟩])
        (locs ++ [⟨ln, pos + 1 - ls, pos + 1⟩]) := by
  have hp : peek lx = ':' := h.peek_eq hsrc hpos
  have hn : peek_next lx = ':' := h.peek_next_eq hsrc hpos
  have hstep := lexer_step_colon hp
  rw [if_pos hn] at hstep
  refine ⟨_, lexer_loop_next (by rw [hp]; decide) hstep, ?_⟩
  exact ((h.set_current (lx.current + 1)).push_at tok_double_colon (some "::".toList)).advance_at.congr
    (by rw [h.current_eq]) rfl rfl rfl (by rw [h.current_eq])

theorem step_comment {lx : Lexer} {src : List Char} {pos ls ln : Nat}
    {toks : List TokenData} {locs : List Location} (h : lx.At src pos ls ln toks locs)
    (pre t rest : List Char) (hsrc : src = pre ++ '/' :: '/' :: (t ++ rest))
    (hpos : pos = pre.length) (ht : ∀ c ∈ t, c ≠ NUL ∧ c ≠ '\n')
    (hrest : rest.headD NUL = NUL ∨ rest.headD NUL = '\n') :
    ∃ lx', (∀ f, lexer_loop (f + 1) lx = lexer_loop f lx') ∧
      lx'.At src (pos + 2 + t.length) ls ln toks locs := by
  have hp : peek lx = '/' := h.peek_eq hsrc hpos
  have hn : peek_next lx = '/' := h.peek_next_eq hsrc hpos
  have hstep := lexer_step_slash hp
  rw [if_pos hn] at hstep
  have hs2 : ({ lx with current := lx.current + 2 } : Lexer).start
      = (pre ++ ['/', '/']) ++ (t ++ rest) := by
    simp [h.start_eq, hsrc]
  have hc2 : ({ lx with current := lx.current + 2 } : Lexer).current
      = (pre ++ ['/', '/']).length := by
    simp [h.current_eq, hpos]
  rw [advance_while_split (fun c => c != NUL && c != '\n') t (pre ++ ['/', '/']) rest _ _ hs2 hc2
    (fun c hc => by simp [(ht c hc).1, (ht c hc).2])
    (by rcases hrest with hr | hr <;> rw [hr] <;> rfl) (remaining_split hs2 hc2)] at hstep
  refine ⟨_, lexer_loop_next (by rw [hp]; decide) hstep, ?_⟩
  exact ((h.set_current (lx.current + 2)).set_current _).congr
    (by simp [hpos]) rfl rfl rfl rfl

theorem step_finish {lx : Lexer} {src : List Char} {pos ls ln : Nat}
    {toks : List TokenData} {locs : List Location} (h : lx.At src pos ls ln toks locs)
    (hpos : pos = src.length) (f : Nat) :
    ∃ r, lexer_loop (f + 1) lx = some r ∧ r.ret = 0 ∧ r.diag = none ∧
      valid_tokens r.lexer = toks ++ [⟨tok_eof, none, 0⟩] ∧
      valid_locations r.lexer = locs ++ [⟨ln, pos - ls, pos⟩] := by
  have hp : peek lx = NUL := h.peek_eq (List.append_nil src).symm hpos
  have hA := h.push_at tok_eof none
  exact ⟨_, lexer_loop_done hp f, rfl, rfl, hA.tokens_eq, hA.locations_eq⟩

theorem step_identifier {lx : Lexer} {src : List Char} {pos ls ln : Nat}
    {toks : List TokenData} {locs : List Location} (h : lx.At src pos ls ln toks locs)
    (pre rest : List Char) (c : Char) (cs : List Char)
    (hsrc : src = pre ++ (c :: cs ++ rest)) (hpos : pos = pre.length)
    (hc : isalpha c = true) (hcs : ∀ x ∈ cs, (isalnum x || x == '_') = true)
    (hrest : (isalnum (rest.headD NUL) || rest.headD NUL == '_') = false) :
    ∃ lx', (∀ f, lexer_loop (f + 1) lx = lexer_loop f lx') ∧
      lx'.At src (pos + (cs.length + 1)) ls ln
        (toks ++ [⟨identifier_type (c :: cs), some (c :: cs), cs.length + 1⟩])
        (locs ++ [⟨ln, pos + (cs.length + 1) - ls, pos + (cs.length + 1)⟩]) := by
  have hp : peek lx = c := h.peek_eq hsrc hpos
  have hw : ∀ x ∈ c :: cs, (isalnum x || x == '_') = true := by
    intro x hx
    rcases List.mem_cons.mp hx with rfl | hx
    · exact (isalpha_facts hc).2.2
    · exact hcs x hx
  have hstep : lexer_step lx = .next (handle_identifier lx) := by
    rw [lexer_step_default (by rw [hp]; exact isalpha_not_case_label hc),
      lexer_default_identifier (by rw [hp]; exact hc)]
  rw [handle_identifier_split (h.start_eq.trans hsrc) (h.current_eq.trans hpos) hw hrest] at hstep
  refine ⟨_, lexer_loop_next (by rw [hp]; rintro rfl; exact absurd hc (by decide)) hstep, ?_⟩
  exact ((h.set_current (pre.length + (c :: cs).length)).push_at _ _).congr
    (by simp [hpos]) rfl rfl
    (by rw [token_data_some _ (ne_NUL_of_pred (by decide) hw)]; rfl)
    (by simp [hpos])

theorem quote_not_case_label : '\"' ∉ case_labels := by decide

theorem step_string {lx : Lexer} {src : List Char} {pos ls ln : Nat}
    {toks : List TokenData} {locs : List Location} (h : lx.At src pos ls ln toks locs)
    (pre s rest : List Char) (hsrc : src = pre ++ '\"' :: (s ++ '\"' :: rest))
    (hpos : pos = pre.length) (hs : ∀ c ∈ s, c ≠ NUL ∧ c ≠ '\"') :
    ∃ lx' ls', (∀ f, lexer_loop (f + 1) lx = lexer_loop f lx') ∧
      lx'.At src (pos + s.length + 2) ls' (ln + s.count '\n')
        (toks ++ [⟨tok_string, some s, s.length⟩])
        (locs ++ [⟨ln + s.count '\n', pos + 1 + s.length - ls', pos + 1 + s.length⟩]) := by
  have hp : peek lx = '\"' := h.peek_eq hsrc hpos
  have hsa : ({ lx with current := lx.current + 1 } : Lexer).start
      = (pre ++ ['\"']) ++ (s ++ '\"' :: rest) := by
    simp [h.start_eq, hsrc]
  have hca : ({ lx with current := lx.current + 1 } : Lexer).current
      = (pre ++ ['\"']).length := by
    simp [h.current_eq, hpos]
  obtain ⟨ls', hloop⟩ := string_loop_split s (pre ++ ['\"']) ('\"' :: rest) _
    (remaining { lx with current := lx.current + 1 }) hsa hca hs (Or.inr rfl)
    (remaining_split hsa hca)
  have hstep : ∃ lx', lexer_step lx = .next lx' ∧
      lx'.At src (pos + s.length + 2) ls' (ln + s.count '\n')
        (toks ++ [⟨tok_string, some s, s.length⟩])
        (locs ++ [⟨ln + s.count '\n', pos + 1 + s.length - ls', pos + 1 + s.length⟩]) := by
    rw [lexer_step_default (by rw [hp]; exact quote_not_case_label)]
    unfold lexer_default
    rw [if_pos hp]
    dsimp only
    rw [hloop]
    split
    · rename_i hnul
      exfalso
      rw [@peek_of_split _ (pre ++ '\"' :: s) ('\"' :: rest)
        (by simp [h.start_eq, hsrc]) (by simp; omega)] at hnul
      exact absurd (show '\"' = NUL from hnul) (by decide)
    · refine ⟨_, rfl, ?_⟩
      have hcopy : copy_slice lx.start (lx.current + 1)
          ((pre ++ ['\"']).length + s.length - (lx.current + 1)) = s := by
        have := copy_slice_split (pre ++ ['\"']) s ('\"' :: rest) (fun x hx => (hs x hx).1)
        rw [h.start_eq, hsrc, h.current_eq, hpos]
        simpa using this
      exact (((h.cursor ((pre ++ ['\"']).length + s.length) ls'
        (lx.line_number + s.count '\n')).push_at tok_string _).set_current _).congr
        (by simp [hpos]; omega) rfl (by rw [h.line_number_eq])
        (by rw [hcopy, token_data_some _ (fun x hx => (hs x hx).1)])
        (by simp [hpos, h.line_number_eq])
  obtain ⟨lx', hl, hA⟩ := hstep
  exact ⟨lx', ls', lexer_loop_next (by rw [hp]; decide) hl, hA⟩

theorem step_string_unterminated {lx : Lexer} {src : List Char} {pos ls ln : Nat}
    {toks : List TokenData} {locs : List Location} (h : lx.At src pos ls ln toks locs)
    (pre s : List Char) (hsrc : src = pre ++ '\"' :: s)
    (hpos : pos = pre.length) (hs : ∀ c ∈ s, c ≠ NUL ∧ c ≠ '\"') (f : Nat) :
    ∃ r, lexer_loop (f + 1) lx = some r ∧ r.ret = -1 ∧
      r.diag = some (.unterminated_string (ln + s.count '\n')) ∧
      valid_tokens r.lexer = toks ∧ valid_locations r.lexer = locs := by
  have hp : peek lx = '\"' := h.peek_eq hsrc hpos
  have hsa : ({ lx with current := lx.current + 1 } : Lexer).start
      = (pre ++ ['\"']) ++ (s ++ []) := by
    simp [h.start_eq, hsrc]
  have hca : ({ lx with current := lx.current + 1 } : Lexer).current
      = (pre ++ ['\"']).length := by
    simp [h.current_eq, hpos]
  obtain ⟨ls', hloop⟩ := string_loop_split s (pre ++ ['\"']) [] _
    (remaining { lx with current := lx.current + 1 }) hsa hca hs (Or.inl rfl)
    (remaining_split hsa hca)
  have hln := h.line_number_eq
  subst hln
  have hstep : ∃ lx', lexer_step lx =
        .fail lx' (.unterminated_string (lx.line_number + s.count '\n')) ∧
      valid_tokens lx' = toks ∧ valid_locations lx' = locs := by
    rw [lexer_step_default (by rw [hp]; exact quote_not_case_label)]
    unfold lexer_default
    rw [if_pos hp]
    dsimp only
    rw [hloop]
    split
    · exact ⟨_, rfl, h.tokens_eq, h.locations_eq⟩
    · rename_i hnul
      exfalso
      apply hnul
      rw [@peek_of_split _ (pre ++ '\"' :: s) ([])
        (by simp [h.start_eq, hsrc]) (by simp; omega)]
      rfl
  obtain ⟨lx', hl, ht, hlo⟩ := hstep
  exact ⟨_, lexer_loop_fail (by rw [hp]; decide) hl f, rfl, rfl, ht, hlo⟩

theorem step_number {lx : Lexer} {src : List Char} {pos ls ln : Nat}
    {toks : List TokenData} {locs : List Location} (h : lx.At src pos ls ln toks locs)
    (pre rest : List Char) (d : Char) (ds : List Char)
    (hsrc : src = pre ++ (d :: ds ++ rest)) (hpos : pos = pre.length)
    (hd : isdigit d = true) (hds : ∀ x ∈ ds, isdigit x = true)
    (hr1 : isdigit (rest.headD NUL) = false) (hr2 : rest.headD NUL ≠ '.') :
    ∃ lx', (∀ f, lexer_loop (f + 1) lx = lexer_loop f lx') ∧
      lx'.At src (pos + (ds.length + 1)) ls ln
        (toks ++ [⟨tok_number, some (d :: ds), ds.length + 1⟩])
        (locs ++ [⟨ln, pos + (ds.length + 1) - ls, pos + (ds.length + 1)⟩]) := by
  have hp : peek lx = d := h.peek_eq hsrc hpos
  have hw : ∀ x ∈ d :: ds, isdigit x = true := by
    intro x hx
    rcases List.mem_cons.mp hx with rfl | hx
    · exact hd
    · exact hds x hx
  have hloop := advance_while_split isdigit (d :: ds) pre rest lx (remaining lx)
    (h.start_eq.trans hsrc) (h.current_eq.trans hpos) hw hr1
    (remaining_split (h.start_eq.trans hsrc) (h.current_eq.trans hpos))
  have hstep : ∃ lx', lexer_step lx = .next lx' ∧
      lx'.At src (pos + (ds.length + 1)) ls ln
        (toks ++ [⟨tok_number, some (d :: ds), ds.length + 1⟩])
        (locs ++ [⟨ln, pos + (ds.length + 1) - ls, pos + (ds.length + 1)⟩]) := by
    rw [lexer_step_default (by rw [hp]; exact isdigit_not_case_label hd)]
    unfold lexer_default
    rw [if_neg (by rw [hp]; exact (isdigit_facts hd).1), if_pos (by rw [hp]; exact hd)]
    dsimp only
    rw [hloop]
    have hpk : peek ({ lx with current := pre.length + (d :: ds).length } : Lexer)
        = rest.headD NUL :=
      @peek_of_split _ (pre ++ (d :: ds)) (rest)
        (by simp [h.start_eq, hsrc]) (by simp)
    rw [if_neg (by rw [hpk]; exact hr2)]
    refine ⟨_, rfl, ?_⟩
    have hcopy : copy_slice lx.start lx.current (pre.length + (d :: ds).length - lx.current)
        = d :: ds := by
      rw [h.start_eq, hsrc, h.current_eq, hpos, Nat.add_sub_cancel_left]
      exact copy_slice_split pre (d :: ds) rest (ne_NUL_of_pred (by decide) hw)
    exact ((h.set_current (pre.length + (d :: ds).length)).push_at tok_number _).congr
      (by simp [hpos]) rfl rfl
      (by rw [hcopy, token_data_some _ (ne_NUL_of_pred (by decide) hw)]; rfl)
      (by simp [hpos])
  obtain ⟨lx', hl, hA⟩ := hstep
  exact ⟨lx', lexer_loop_next (by rw [hp]; exact (isdigit_facts hd).2.2) hl, hA⟩

theorem step_number_dot {lx : Lexer} {src : List Char} {pos ls ln : Nat}
    {toks : List TokenData} {locs : List Location} (h : lx.At src pos ls ln toks locs)
    (pre b rest : List Char) (d : Char) (ds : List Char)
    (hsrc : src = pre ++ (d :: ds ++ '.' :: (b ++ rest))) (hpos : pos = pre.length)
    (hd : isdigit d = true) (hds : ∀ x ∈ ds, isdigit x = true)
    (hb : ∀ x ∈ b, isdigit x = true) (hr : isdigit (rest.headD NUL) = false) :
    ∃ lx', (∀ f, lexer_loop (f + 1) lx = lexer_loop f lx') ∧
      lx'.At src (pos + (ds.length + 1) + 1 + b.length) ls ln
        (toks ++ [⟨tok_number, some (d :: ds ++ '.' :: b), ds.length + 1 + 1 + b.length⟩])
        (locs ++ [⟨ln, pos + (ds.length + 1) + 1 + b.length - ls,
          pos + (ds.length + 1) + 1 + b.length⟩]) := by
  have hp : peek lx = d := h.peek_eq hsrc hpos
  have hw : ∀ x ∈ d :: ds, isdigit x = true := by
    intro x hx
    rcases List.mem_cons.mp hx with rfl | hx
    · exact hd
    · exact hds x hx
  have hloop := advance_while_split isdigit (d :: ds) pre ('.' :: (b ++ rest)) lx (remaining lx)
    (h.start_eq.trans hsrc) (h.current_eq.trans hpos) hw
    (show isdigit '.' = false by decide)
    (remaining_split (h.start_eq.trans hsrc) (h.current_eq.trans hpos))
  have hs2 : ({ lx with current := pre.length + (d :: ds).length + 1 } : Lexer).start
      = (pre ++ (d :: ds ++ ['.'])) ++ (b ++ rest) := by
    simp [h.start_eq, hsrc]
  have hc2 : ({ lx with current := pre.length + (d :: ds).length + 1 } : Lexer).current
      = (pre ++ (d :: ds ++ ['.'])).length := by
    simp [Nat.add_assoc]
  have hloop2 := advance_while_split isdigit b (pre ++ (d :: ds ++ ['.'])) rest _
    (remaining { lx with current := pre.length + (d :: ds).length + 1 }) hs2 hc2 hb hr
    (remaining_split hs2 hc2)
  have hall : ∀ x ∈ d :: ds ++ '.' :: b, x ≠ NUL := by
    intro x hx
    rcases List.mem_append.mp hx with hx | hx
    · exact (isdigit_facts (hw x hx)).2.2
    · rcases List.mem_cons.mp hx with rfl | hx
      · decide
      · exact (isdigit_facts (hb x hx)).2.2
  have hstep : ∃ lx', lexer_step lx = .next lx' ∧
      lx'.At src (pos + (ds.length + 1) + 1 + b.length) ls ln
        (toks ++ [⟨tok_number, some (d :: ds ++ '.' :: b), ds.length + 1 + 1 + b.length⟩])
        (locs ++ [⟨ln, pos + (ds.length + 1) + 1 + b.length - ls,
          pos + (ds.length + 1) + 1 + b.length⟩]) := by
    rw [lexer_step_default (by rw [hp]; exact isdigit_not_case_label hd)]
    unfold lexer_default
    rw [if_neg (by rw [hp]; exact (isdigit_facts hd).1), if_pos (by rw [hp]; exact hd)]
    dsimp only
    rw [hloop]
    have hpk : peek ({ lx with current := pre.length + (d :: ds).length } : Lexer) = '.' :=
      @peek_of_split _ (pre ++ (d :: ds)) ('.' :: (b ++ rest))
        (by simp [h.start_eq, hsrc]) (by simp)
    rw [if_pos hpk]
    dsimp only
    rw [hloop2]
    refine ⟨_, rfl, ?_⟩
    have hcopy : copy_slice lx.start lx.current
        ((pre ++ (d :: ds ++ ['.'])).length + b.length - lx.current) = d :: ds ++ '.' :: b := by
      have := copy_slice_split pre (d :: ds ++ '.' :: b) rest hall
      rw [h.start_eq, hsrc, h.current_eq, hpos]
      have hlen : (pre ++ (d :: ds ++ ['.'])).length + b.length - pre.length
          = (d :: ds ++ '.' :: b).length := by
        simp; omega
      rw [hlen]
      simpa using this
    exact ((h.set_current ((pre ++ (d :: ds ++ ['.'])).length + b.length)).push_at tok_number _).congr
      (by simp [hpos]; omega) rfl rfl
      (by rw [hcopy, token_data_some _ hall]; simp; omega)
      (by simp [hpos]; omega)
  obtain ⟨lx', hl, hA⟩ := hstep
  exact ⟨lx', lexer_loop_next (by rw [hp]; exact (isdigit_facts hd).2.2) hl, hA⟩

theorem scan_of_loop {src : List Char} {r : RunResult} {k : Nat}
    (h : lexer_loop k (lexer_init src) = some r) (hk : k ≤ src.length + 1) :
    scan src = some r :=
  lexer_loop_mono h _ hk

theorem identifier_type_spec (w : List Char) :
    (identifier_type w = tok_if ↔ w = "if".toList) ∧
    (identifier_type w = tok_else ↔ w = "else".toList) ∧
    (identifier_type w = tok_while ↔ w = "while".toList) ∧
    (identifier_type w = tok_func ↔ w = "func".toList) ∧
    (identifier_type w = tok_return ↔ w = "return".toList) ∧
    (w ∉ ["if".toList, "else".toList, "while".toList, "func".toList, "return".toList] →
      identifier_type w = tok_identifier) := by
  unfold identifier_type
  split_ifs with h1 h2 h3 h4 h5
  · subst h1; decide
  · subst h2; decide
  · subst h3; decide
  · subst h4; decide
  · subst h5; decide
  · simp_all

/-! ## Claims about families of sources -/

/-- C5: for a string body `s` without double quote and NUL, scanning the
literal `"s"` succeeds with exactly a string token whose payload is `s`
verbatim and the end marker, and the line recorded for the string token is
1 plus the number of newlines in `s`.  The source `"x<newline>y" z` of the spec
gives the string `x<newline>y`, the identifier `z` on line 2, and the end
marker. -/
theorem string_literal_scan :
    (∀ s : List Char, (∀ c ∈ s, c ≠ '\"' ∧ c ≠ NUL) →
      ∃ r, scan ('\"' :: (s ++ ['\"'])) = some r ∧ r.ret = 0 ∧
        valid_tokens r.lexer = [⟨tok_string, some s, s.length⟩, ⟨tok_eof, none, 0⟩] ∧
        (valid_locations r.lexer).map Location.line = [1 + s.count '\n', 1 + s.count '\n']) ∧
    (∃ r, scan "\"x\ny\" z".toList = some r ∧ r.ret = 0 ∧
        valid_tokens r.lexer = [⟨tok_string, some "x\ny".toList, 3⟩,
          ⟨tok_identifier, some "z".toList, 1⟩, ⟨tok_eof, none, 0⟩] ∧
        (valid_locations r.lexer).map Location.line = [2, 2, 2]) := by
  constructor
  · intro s hs
    have h0 := lexer_init_At ('\"' :: (s ++ ['\"']))
    obtain ⟨lx1, ls', hl1, hA1⟩ := step_string h0 [] s [] rfl rfl
      (fun c hc => ⟨(hs c hc).2, (hs c hc).1⟩)
    obtain ⟨r, hr, hret, _, htoks, hlocs⟩ := step_finish hA1 (by simp) 0
    refine ⟨r, scan_of_loop (k := 2) (by rw [hl1 1, hr]) (by simp), hret, ?_, ?_⟩
    · simpa using htoks
    · rw [hlocs]; rfl
  · exact ⟨_, rfl, rfl, rfl, rfl⟩

/-- Witness for C5 with the body `x<newline>y`. -/
theorem string_literal_scan_witness :
    ∃ r, scan ('\"' :: ("x\ny".toList ++ ['\"'])) = some r ∧ r.ret = 0 ∧
      valid_tokens r.lexer = [⟨tok_string, some "x\ny".toList, 3⟩, ⟨tok_eof, none, 0⟩] ∧
      (valid_locations r.lexer).map Location.line = [1 + 1, 1 + 1] :=
  string_literal_scan.1 "x\ny".toList (by decide)

/-- C6: a word made of an ASCII letter followed by letters, digits and
underscores scans to exactly one token `T` and the end marker; `T` carries the
whole word, has a keyword kind exactly when the word is that keyword, and is an
identifier otherwise. -/
theorem word_scan (c : Char) (cs : List Char) (hc : isalpha c = true)
    (hcs : ∀ x ∈ cs, isalpha x = true ∨ isdigit x = true ∨ x = '_') :
    ∃ r T, scan (c :: cs) = some r ∧ r.ret = 0 ∧
      valid_tokens r.lexer = [T, ⟨tok_eof, none, 0⟩] ∧
      T.lexeme = some (c :: cs) ∧
      (T.type = tok_if ↔ c :: cs = "if".toList) ∧
      (T.type = tok_else ↔ c :: cs = "else".toList) ∧
      (T.type = tok_while ↔ c :: cs = "while".toList) ∧
      (T.type = tok_func ↔ c :: cs = "func".toList) ∧
      (T.type = tok_return ↔ c :: cs = "return".toList) ∧
      (c :: cs ∉ ["if".toList, "else".toList, "while".toList, "func".toList, "return".toList] →
        T.type = tok_identifier) := by
  have h0 := lexer_init_At (c :: cs)
  obtain ⟨lx1, hl1, hA1⟩ := step_identifier h0 [] [] c cs
    (by simp) rfl hc
    (fun x hx => by
      rcases hcs x hx with h | h | h
      · simp [isalnum, h]
      · simp [isalnum, h]
      · simp [h])
    (by decide)
  obtain ⟨r, hr, hret, _, htoks, _⟩ := step_finish hA1 (by simp) 0
  exact ⟨r, _, scan_of_loop (k := 2) (by rw [hl1 1, hr]) (by simp), hret, by simpa using htoks,
    rfl, identifier_type_spec (c :: cs)⟩

/-- Witness for C6 with the word `iffy`. -/
theorem word_scan_witness :
    ∃ r T, scan "iffy".toList = some r ∧ r.ret = 0 ∧
      valid_tokens r.lexer = [T, ⟨tok_eof, none, 0⟩] ∧
      T.lexeme = some "iffy".toList ∧
      (T.type = tok_if ↔ "iffy".toList = "if".toList) ∧
      (T.type = tok_else ↔ "iffy".toList = "else".toList) ∧
      (T.type = tok_while ↔ "iffy".toList = "while".toList) ∧
      (T.type = tok_func ↔ "iffy".toList = "func".toList) ∧
      (T.type = tok_return ↔ "iffy".toList = "return".toList) ∧
      ("iffy".toList ∉ ["if".toList, "else".toList, "while".toList, "func".toList,
          "return".toList] → T.type = tok_identifier) :=
  word_scan 'i' "ffy".toList (by decide) (by decide)

/-- C7: for non-empty digit strings `a`, `b`, `c`: `a.b` scans to one number
token `a.b`; `a.` scans to one number token `a.` (the trailing dot belongs to the
number); `a.b.c` scans to the number `a.b`, a period, and the number `c`; each
followed by the end marker. -/
theorem number_shapes (a b c : List Char) (ha : a ≠ []) (_hb : b ≠ []) (hc : c ≠ [])
    (hda : ∀ x ∈ a, isdigit x = true) (hdb : ∀ x ∈ b, isdigit x = true)
    (hdc : ∀ x ∈ c, isdigit x = true) :
    (∃ r, scan (a ++ '.' :: b) = some r ∧ r.ret = 0 ∧
      valid_tokens r.lexer =
        [⟨tok_number, some (a ++ '.' :: b), a.length + 1 + b.length⟩, ⟨tok_eof, none, 0⟩]) ∧
    (∃ r, scan (a ++ ['.']) = some r ∧ r.ret = 0 ∧
      valid_tokens r.lexer =
        [⟨tok_number, some (a ++ ['.']), a.length + 1⟩, ⟨tok_eof, none, 0⟩]) ∧
    (∃ r, scan (a ++ '.' :: b ++ '.' :: c) = some r ∧ r.ret = 0 ∧
      valid_tokens r.lexer =
        [⟨tok_number, some (a ++ '.' :: b), a.length + 1 + b.length⟩,
          ⟨tok_period, some ".".toList, 1⟩, ⟨tok_number, some c, c.length⟩,
          ⟨tok_eof, none, 0⟩]) := by
  obtain ⟨d, ds, rfl⟩ := List.exists_cons_of_ne_nil ha
  obtain ⟨e, es, rfl⟩ := List.exists_cons_of_ne_nil hc
  have hd := hda d (List.mem_cons_self _ _)
  have hds : ∀ x ∈ ds, isdigit x = true := fun x hx => hda x (List.mem_cons_of_mem _ hx)
  have he := hdc e (List.mem_cons_self _ _)
  have hes : ∀ x ∈ es, isdigit x = true := fun x hx => hdc x (List.mem_cons_of_mem _ hx)
  refine ⟨?_, ?_, ?_⟩
  · have h0 := lexer_init_At (d :: ds ++ '.' :: b)
    obtain ⟨lx1, hl1, hA1⟩ := step_number_dot h0 [] b [] d ds (by simp) rfl hd hds hdb
      (by decide)
    obtain ⟨r, hr, hret, _, htoks, _⟩ := step_finish hA1 (by simp; omega) 0
    exact ⟨r, scan_of_loop (k := 2) (by rw [hl1 1, hr]) (by simp), hret, by simpa using htoks⟩
  · have h0 := lexer_init_At (d :: ds ++ ['.'])
    obtain ⟨lx1, hl1, hA1⟩ := step_number_dot h0 [] [] [] d ds (by simp) rfl hd hds (by simp)
      (by decide)
    obtain ⟨r, hr, hret, _, htoks, _⟩ := step_finish hA1 (by simp) 0
    exact ⟨r, scan_of_loop (k := 2) (by rw [hl1 1, hr]) (by simp), hret, by simpa using htoks⟩
  · have h0 := lexer_init_At (d :: ds ++ '.' :: b ++ '.' :: e :: es)
    obtain ⟨lx1, hl1, hA1⟩ := step_number_dot h0 [] b ('.' :: e :: es) d ds (by simp) rfl hd hds hdb
      (show isdigit '.' = false by decide)
    obtain ⟨lx2, hl2, hA2⟩ := step_period hA1 (d :: ds ++ '.' :: b) (e :: es)
      (by simp) (by simp; omega)
    obtain ⟨lx3, hl3, hA3⟩ := step_number hA2 (d :: ds ++ '.' :: b ++ ['.']) [] e es (by simp)
      (by simp; omega) he hes (by decide) (by decide)
    obtain ⟨r, hr, hret, _, htoks, _⟩ := step_finish hA3 (by simp; omega) 0
    exact ⟨r, scan_of_loop (k := 4) (by rw [hl1 3, hl2 2, hl3 1, hr]) (by simp; omega), hret,
      by simpa using htoks⟩

/-- Witness for C7 with the digit strings `12`, `34` and `56` of the spec. -/
theorem number_shapes_witness :
    (∃ r, scan "12.34".toList = some r ∧ r.ret = 0 ∧
      valid_tokens r.lexer = [⟨tok_number, some "12.34".toList, 5⟩, ⟨tok_eof, none, 0⟩]) ∧
    (∃ r, scan "12.".toList = some r ∧ r.ret = 0 ∧
      valid_tokens r.lexer = [⟨tok_number, some "12.".toList, 3⟩, ⟨tok_eof, none, 0⟩]) ∧
    (∃ r, scan "12.34.56".toList = some r ∧ r.ret = 0 ∧
      valid_tokens r.lexer =
        [⟨tok_number, some "12.34".toList, 5⟩, ⟨tok_period, some ".".toList, 1⟩,
          ⟨tok_number, some "56".toList, 2⟩, ⟨tok_eof, none, 0⟩]) :=
  number_shapes "12".toList "34".toList "56".toList (by decide) (by decide) (by decide)
    (by decide) (by decide) (by decide)

theorem colon_tokens_add_two (n : Nat) :
    colon_tokens (n + 2) = ⟨tok_double_colon, some "::".toList, 2⟩ :: colon_tokens n := by
  unfold colon_tokens
  rw [Nat.add_div_right n (by decide : 0 < 2), Nat.add_mod_right, List.replicate_succ]
  rfl

theorem colons_run (n : Nat) : ∀ (lx : Lexer) (src pre : List Char) (pos ls ln : Nat)
    (toks : List TokenData) (locs : List Location),
    lx.At src pos ls ln toks locs → src = pre ++ List.replicate n ':' → pos = pre.length →
    ∃ r k, k ≤ n + 1 ∧ lexer_loop k lx = some r ∧ r.ret = 0 ∧
      valid_tokens r.lexer = toks ++ colon_tokens n ++ [⟨tok_eof, none, 0⟩] := by
  induction n using Nat.strong_induction_on with
  | _ n ih =>
    intro lx src pre pos ls ln toks locs h hsrc hpos
    match n, ih with
    | 0, _ =>
      obtain ⟨r, hr, hret, _, htoks, _⟩ := step_finish h (by simp [hsrc, hpos]) 0
      exact ⟨r, 1, Nat.le_refl _, hr, hret, by simpa [colon_tokens] using htoks⟩
    | 1, _ =>
      obtain ⟨lx1, hl1, hA1⟩ := step_colon h pre [] hsrc hpos (by decide)
      obtain ⟨r, hr, hret, _, htoks, _⟩ := step_finish hA1 (by simp [hsrc, hpos]) 0
      exact ⟨r, 2, Nat.le_refl _, by rw [hl1 1, hr], hret, by simpa [colon_tokens] using htoks⟩
    | m + 2, ih =>
      obtain ⟨lx1, hl1, hA1⟩ := step_double_colon h pre (List.replicate m ':')
        (by rw [hsrc]; rfl) hpos
      obtain ⟨r, k, hk, hr, hret, htoks⟩ := ih m (by omega) lx1 src (pre ++ [':', ':']) _ _ _ _ _
        hA1 (by rw [hsrc]; simp [List.replicate_succ]) (by simp [hpos])
      exact ⟨r, k + 1, by omega, by rw [hl1 k, hr], hret,
        by rw [htoks, colon_tokens_add_two]; simp⟩

/-- C8: a source of `n >= 1` colons scans to `n / 2` double-colon tokens,
then one colon token when `n` is odd, then the end marker; in particular `:`
gives colon, `::` gives double colon, `:::` gives double colon then colon. -/
theorem colons_scan (n : Nat) (_hn : 1 ≤ n) :
    ∃ r, scan (List.replicate n ':') = some r ∧ r.ret = 0 ∧
      valid_tokens r.lexer =
        List.replicate (n / 2) ⟨tok_double_colon, some "::".toList, 2⟩ ++
          (if n % 2 = 1 then [⟨tok_colon, some ":".toList, 1⟩] else []) ++
          [⟨tok_eof, none, 0⟩] := by
  obtain ⟨r, k, hk, hr, hret, htoks⟩ := colons_run n (lexer_init (List.replicate n ':'))
    (List.replicate n ':') [] 0 0 1 [] [] (lexer_init_At _) rfl rfl
  exact ⟨r, scan_of_loop hr (by simpa using hk), hret, by simpa [colon_tokens] using htoks⟩

/-- Witness for C8 with one, two and three colons, the sources of the spec. -/
theorem colons_scan_witness :
    (∃ r, scan ":".toList = some r ∧ r.ret = 0 ∧
      valid_tokens r.lexer = [⟨tok_colon, some ":".toList, 1⟩, ⟨tok_eof, none, 0⟩]) ∧
    (∃ r, scan "::".toList = some r ∧ r.ret = 0 ∧
      valid_tokens r.lexer = [⟨tok_double_colon, some "::".toList, 2⟩, ⟨tok_eof, none, 0⟩]) ∧
    (∃ r, scan ":::".toList = some r ∧ r.ret = 0 ∧
      valid_tokens r.lexer =
        [⟨tok_double_colon, some "::".toList, 2⟩, ⟨tok_colon, some ":".toList, 1⟩,
          ⟨tok_eof, none, 0⟩]) :=
  ⟨colons_scan 1 (by decide), colons_scan 2 (by decide), colons_scan 3 (by decide)⟩

/-- C9: for a comment text `t` without newline and NUL, the source
`a //t<newline>c` scans to identifier `a`, identifier `c` and the end marker,
with `c` (and the end marker) located on line 2. -/
theorem comment_elision (t : List Char) (ht : ∀ x ∈ t, x ≠ '\n' ∧ x ≠ NUL) :
    ∃ r, scan ("a //".toList ++ t ++ "\nc".toList) = some r ∧ r.ret = 0 ∧
      valid_tokens r.lexer =
        [⟨tok_identifier, some "a".toList, 1⟩, ⟨tok_identifier, some "c".toList, 1⟩,
          ⟨tok_eof, none, 0⟩] ∧
      (valid_locations r.lexer).map Location.line = [1, 2, 2] := by
  have h0 := lexer_init_At ("a //".toList ++ t ++ "\nc".toList)
  obtain ⟨lx1, hl1, hA1⟩ := step_identifier h0 [] (' ' :: '/' :: '/' :: (t ++ ['\n', 'c'])) 'a' []
    (by simp) rfl (by decide) (by simp)
    (show (isalnum ' ' || ' ' == '_') = false by decide)
  obtain ⟨lx2, hl2, hA2⟩ := step_space hA1 ['a'] ('/' :: '/' :: (t ++ ['\n', 'c'])) (by simp) rfl
  obtain ⟨lx3, hl3, hA3⟩ := step_comment hA2 ['a', ' '] t ['\n', 'c'] (by simp) rfl
    (fun x hx => ⟨(ht x hx).2, (ht x hx).1⟩) (Or.inr rfl)
  obtain ⟨lx4, hl4, hA4⟩ := step_newline hA3 ('a' :: ' ' :: '/' :: '/' :: t) ['c'] (by simp)
    (by simp; omega)
  obtain ⟨lx5, hl5, hA5⟩ := step_identifier hA4 ('a' :: ' ' :: '/' :: '/' :: (t ++ ['\n'])) []
    'c' [] (by simp) (by simp; omega) (by decide) (by simp)
    (by decide)
  obtain ⟨r, hr, hret, _, htoks, hlocs⟩ := step_finish hA5 (by simp; omega) 0
  refine ⟨r, scan_of_loop (k := 6) (by rw [hl1 5, hl2 4, hl3 3, hl4 2, hl5 1, hr])
    (by simp), hret, ?_, ?_⟩
  · rw [htoks]; rfl
  · rw [hlocs]; rfl

/-- Witness for C9 with the comment text ` b` of the spec. -/
theorem comment_elision_witness :
    ∃ r, scan ("a //".toList ++ " b".toList ++ "\nc".toList) = some r ∧ r.ret = 0 ∧
      valid_tokens r.lexer =
        [⟨tok_identifier, some "a".toList, 1⟩, ⟨tok_identifier, some "c".toList, 1⟩,
          ⟨tok_eof, none, 0⟩] ∧
      (valid_locations r.lexer).map Location.line = [1, 2, 2] :=
  comment_elision " b".toList (by decide)

/-- C10: for a string body `s` without double quote and NUL, the source made of
an opening quote and `s`, never closed, makes `lexer_run` return -1 with the
unterminated-string diagnostic on line 1 plus the number of newlines in `s`. -/
theorem unterminated_string_scan (s : List Char) (hs : ∀ c ∈ s, c ≠ '\"' ∧ c ≠ NUL) :
    ∃ r, scan ('\"' :: s) = some r ∧ r.ret = -1 ∧
      r.diag = some (.unterminated_string (1 + s.count '\n')) := by
  obtain ⟨r, hr, hret, hdiag, _, _⟩ := step_string_unterminated
    (lexer_init_At ('\"' :: s)) [] s rfl rfl
    (fun c hc => ⟨(hs c hc).2, (hs c hc).1⟩) 0
  exact ⟨r, scan_of_loop (k := 1) hr (by simp), hret, hdiag⟩

/-- Witness for C10 with the source of the spec, a double quote followed by `abc`. -/
theorem unterminated_string_scan_witness :
    ∃ r, scan "\"abc".toList = some r ∧ r.ret = -1 ∧
      r.diag = some (.unterminated_string (1 + 0)) :=
  unterminated_string_scan "abc".toList (by decide)

/-! ## Termination: the fuel given to the loops is enough -/

theorem peek_lt {lx : Lexer} (h : peek lx ≠ NUL) : lx.current < lx.start.length := by
  by_contra hge
  exact h (List.getD_eq_default _ _ (Nat.le_of_not_lt hge))

theorem peek_next_lt {lx : Lexer} (h : peek_next lx ≠ NUL) :
    lx.current + 1 < lx.start.length := by
  by_contra hge
  exact h (List.getD_eq_default _ _ (Nat.le_of_not_lt hge))

/-- The simple loops stop inside the buffer. -/
theorem advance_while_bound (p : Char → Bool) (hp : p NUL = false) (fuel : Nat) (lx : Lexer)
    (h : lx.current ≤ lx.start.length) :
    (advance_while p fuel lx).current ≤ lx.start.length := by
  induction fuel generalizing lx with
  | zero => exact h
  | succ n ih =>
    unfold advance_while
    split
    · rename_i hc
      have hlt : lx.current < lx.start.length :=
        peek_lt (fun hn => by rw [hn, hp] at hc; exact Bool.noConfusion hc)
      exact ih { lx with current := lx.current + 1 } hlt
    · exact h

/-- With `remaining` as fuel a simple loop ends because its condition is false. -/
theorem advance_while_exit (p : Char → Bool) (hp : p NUL = false) (fuel : Nat) (lx : Lexer)
    (hf : remaining lx ≤ fuel) : p (peek (advance_while p fuel lx)) = false := by
  induction fuel generalizing lx with
  | zero =>
    have hnul : peek lx = NUL :=
      List.getD_eq_default _ _ (by simp only [remaining] at hf; omega)
    simp [advance_while, hnul, hp]
  | succ n ih =>
    unfold advance_while
    split
    · exact ih { lx with current := lx.current + 1 } (by simp only [remaining] at hf ⊢; omega)
    · rename_i hc
      simpa using hc

theorem advance_while_pos (p : Char → Bool) (fuel : Nat) (lx : Lexer)
    (hc : p (peek lx) = true) :
    lx.current + 1 ≤ (advance_while p (fuel + 1) lx).current := by
  rw [advance_while, if_pos hc]
  exact (advance_while_forward p fuel { lx with current := lx.current + 1 }).2.2.2.2.2.1

theorem string_loop_bound (fuel : Nat) (lx : Lexer) (h : lx.current ≤ lx.start.length) :
    (string_loop fuel lx).current ≤ lx.start.length := by
  induction fuel generalizing lx with
  | zero => exact h
  | succ n ih =>
    unfold string_loop
    split
    · rename_i hc
      have hlt : lx.current < lx.start.length := peek_lt (fun hn => by simp [hn] at hc)
      split
      · exact ih _ hlt
      · exact ih _ hlt
    · exact h

/-- With `remaining` as fuel the string loop ends at the terminator or at a
double quote. -/
theorem string_loop_exit (fuel : Nat) (lx : Lexer) (hf : remaining lx ≤ fuel) :
    peek (string_loop fuel lx) = NUL ∨ peek (string_loop fuel lx) = '\"' := by
  induction fuel generalizing lx with
  | zero =>
    show peek lx = NUL ∨ peek lx = '\"'
    exact Or.inl (List.getD_eq_default _ _ (by simp only [remaining] at hf; omega))
  | succ n ih =>
    unfold string_loop
    split
    · split
      · exact ih _ (by simp only [remaining] at hf ⊢; omega)
      · exact ih _ (by simp only [remaining] at hf ⊢; omega)
    · rename_i hc
      simp only [Bool.and_eq_true, bne_iff_ne, ne_eq, not_and, Decidable.not_not] at hc
      by_cases hn : peek lx = NUL
      · exact Or.inl hn
      · exact Or.inr (hc hn)

theorem handle_identifier_progress {lx : Lexer} (h : isalpha (peek lx) = true) :
    (handle_identifier lx).start = lx.start ∧ lx.current < (handle_identifier lx).current ∧
      (handle_identifier lx).current ≤ lx.start.length := by
  have hnul : peek lx ≠ NUL := fun hn => by rw [hn] at h; exact absurd h (by decide)
  have hlt := peek_lt hnul
  obtain ⟨k, hk⟩ : ∃ k, remaining lx = k + 1 := ⟨remaining lx - 1, by simp only [remaining]; omega⟩
  have hpos := advance_while_pos (fun c => isalnum c || c == '_') k lx (isalpha_facts h).2.2
  have hbound := advance_while_bound (fun c => isalnum c || c == '_') (by decide) (k + 1) lx
    (Nat.le_of_lt hlt)
  have hfw := advance_while_forward (fun c => isalnum c || c == '_') (k + 1) lx
  unfold handle_identifier
  dsimp only
  rw [hk]
  simp only [push_token_start, push_token_current]
  exact ⟨hfw.1, by omega, hbound⟩

theorem lexer_default_progress {lx : Lexer} (h : peek lx ≠ NUL) :
    (lexer_default lx).Progress lx := by
  have hlt := peek_lt h
  unfold lexer_default
  dsimp only
  split_ifs with h1 h2 h3 h4 h5
  · trivial
  · have hfw := string_loop_forward (remaining { lx with current := lx.current + 1 })
      { lx with current := lx.current + 1 }
    have hb : (string_loop (remaining { lx with current := lx.current + 1 })
        { lx with current := lx.current + 1 }).current < lx.start.length := by
      have := peek_lt h2
      rw [hfw.1] at this
      exact this
    have hcur := hfw.2.2.2.2.2.1
    simp only [Step.Progress, push_token_start, push_token_current]
    exact ⟨hfw.1, by simp only [] at hcur; omega, by omega⟩
  · obtain ⟨k, hk⟩ : ∃ k, remaining lx = k + 1 :=
      ⟨remaining lx - 1, by simp only [remaining]; omega⟩
    have hpos := advance_while_pos isdigit k lx h3
    have hbound := advance_while_bound isdigit (by decide) (k + 1) lx (Nat.le_of_lt hlt)
    have hfw := advance_while_forward isdigit (k + 1) lx
    rw [hk] at h4 ⊢
    have hdot : peek (advance_while isdigit (k + 1) lx) ≠ NUL := by rw [h4]; decide
    have hb := peek_lt hdot
    have hfw2 := advance_while_forward isdigit
      (remaining { advance_while isdigit (k + 1) lx with
        current := (advance_while isdigit (k + 1) lx).current + 1 })
      { advance_while isdigit (k + 1) lx with
        current := (advance_while isdigit (k + 1) lx).current + 1 }
    have hbound2 := advance_while_bound isdigit (by decide)
      (remaining { advance_while isdigit (k + 1) lx with
        current := (advance_while isdigit (k + 1) lx).current + 1 })
      { advance_while isdigit (k + 1) lx with
        current := (advance_while isdigit (k + 1) lx).current + 1 } hb
    have hcur := hfw2.2.2.2.2.2.1
    simp only [Step.Progress, push_token_start, push_token_current]
    refine ⟨hfw2.1.trans hfw.1, ?_, ?_⟩
    · simp only [] at hcur; omega
    · rw [← hfw.1]; exact hbound2
  · obtain ⟨k, hk⟩ : ∃ k, remaining lx = k + 1 :=
      ⟨remaining lx - 1, by simp only [remaining]; omega⟩
    have hpos := advance_while_pos isdigit k lx h3
    have hbound := advance_while_bound isdigit (by decide) (k + 1) lx (Nat.le_of_lt hlt)
    have hfw := advance_while_forward isdigit (k + 1) lx
    rw [hk]
    simp only [Step.Progress, push_token_start, push_token_current]
    exact ⟨hfw.1, by omega, hbound⟩
  · exact handle_identifier_progress h5
  · trivial

theorem lexer_step_progress {lx : Lexer} (h : peek lx ≠ NUL) : (lexer_step lx).Progress lx := by
  have hlt := peek_lt h
  unfold lexer_step
  split
  case h_27 => exact lexer_default_progress h
  case h_12 =>
    split
    · rename_i hn
      have hb := @peek_next_lt lx (by rw [hn]; decide)
      simp only [Step.Progress, advance, push_token_start, push_token_current]
      exact ⟨trivial, by omega, by omega⟩
    · simp only [Step.Progress, advance, push_token_start, push_token_current]
      exact ⟨trivial, by omega, by omega⟩
  case h_17 =>
    split
    · rename_i hn
      have hb := @peek_next_lt lx (by rw [hn]; decide)
      have hfw := advance_while_forward (fun c => c != NUL && c != '\n')
        (remaining { lx with current := lx.current + 2 }) { lx with current := lx.current + 2 }
      have hbound := advance_while_bound (fun c => c != NUL && c != '\n') (by decide)
        (remaining { lx with current := lx.current + 2 }) { lx with current := lx.current + 2 } hb
      have hcur := hfw.2.2.2.2.2.1
      simp only [Step.Progress]
      exact ⟨hfw.1, by simp only [] at hcur; omega, hbound⟩
    · simp only [Step.Progress, advance, push_token_start, push_token_current]
      exact ⟨trivial, by omega, by omega⟩
  all_goals
    simp only [Step.Progress, advance, push_token_start, push_token_current]
    exact ⟨trivial, by omega, by omega⟩

/-- The main loop returns a result whenever its fuel covers the distance to the
terminator plus the final test. -/
theorem lexer_loop_total (fuel : Nat) : ∀ lx : Lexer, lx.current ≤ lx.start.length →
    lx.start.length + 1 - lx.current ≤ fuel → ∃ r, lexer_loop fuel lx = some r := by
  induction fuel with
  | zero => intro lx h hf; omega
  | succ n ih =>
    intro lx h hf
    unfold lexer_loop
    split
    · rename_i hp
      have hp' : peek lx ≠ NUL := by simpa using hp
      have hprog := lexer_step_progress hp'
      split
      · rename_i lx' heq
        rw [heq] at hprog
        obtain ⟨hs, hc, hb⟩ := hprog
        exact ih lx' (by rw [hs]; exact hb) (by rw [hs]; omega)
      · exact ⟨_, rfl⟩
    · exact ⟨_, rfl⟩

/-- Function `lexer_run` always returns: the fuel `length + 1` is enough. -/
theorem scan_total (src : List Char) : ∃ r, scan src = some r :=
  lexer_loop_total _ (lexer_init src) (Nat.zero_le _) (Nat.le_refl _)

/-! ## Elementary moves and the invariants they keep -/

theorem Moves.refl_moves (a : Lexer) : Moves a a := Relation.ReflTransGen.refl

theorem Moves.trans_moves {a b c : Lexer} (h1 : Moves a b) (h2 : Moves b c) : Moves a c :=
  Relation.ReflTransGen.trans h1 h2

theorem Moves.of_move {a b : Lexer} (h : Move a b) : Moves a b :=
  Relation.ReflTransGen.single h

@[simp] theorem peek_push_token (lx : Lexer) (ty : Token) (s : Option (List Char)) :
    peek (push_token lx ty s) = peek lx := by
  simp [peek]

theorem advance_while_moves (p : Char → Bool) (hp : ∀ c, p c = true → c ≠ NUL ∧ c ≠ '\n')
    (fuel : Nat) (lx : Lexer) : Moves lx (advance_while p fuel lx) := by
  induction fuel generalizing lx with
  | zero => exact Moves.refl_moves lx
  | succ n ih =>
    unfold advance_while
    split
    · rename_i hc
      exact Moves.trans_moves (Moves.of_move (Move.skip lx (hp _ hc).1 (hp _ hc).2)) (ih _)
    · exact Moves.refl_moves lx

theorem string_loop_moves (fuel : Nat) (lx : Lexer) : Moves lx (string_loop fuel lx) := by
  induction fuel generalizing lx with
  | zero => exact Moves.refl_moves lx
  | succ n ih =>
    unfold string_loop
    split
    · rename_i hc
      have hnul : peek lx ≠ NUL := fun hn => by simp [hn] at hc
      split
      · rename_i hnl
        exact Moves.trans_moves (Moves.of_move (Move.newline lx hnl)) (ih _)
      · rename_i hnl
        exact Moves.trans_moves (Moves.of_move (Move.skip lx hnul hnl)) (ih _)
    · exact Moves.refl_moves lx

theorem isdigit_stop (c : Char) (h : isdigit c = true) : c ≠ NUL ∧ c ≠ '\n' := by
  constructor <;>
  · rintro rfl
    exact absurd h (by decide)

theorem isident_stop (c : Char) (h : (isalnum c || c == '_') = true) : c ≠ NUL ∧ c ≠ '\n' := by
  constructor <;>
  · rintro rfl
    exact absurd h (by decide)

theorem comment_stop (c : Char) (h : (c != NUL && c != '\n') = true) : c ≠ NUL ∧ c ≠ '\n' := by
  simpa using h

theorem identifier_type_kind (w : List Char) : is_lexeme_kind (identifier_type w) = true := by
  unfold identifier_type
  split_ifs <;> rfl

theorem handle_identifier_moves (lx : Lexer) : Moves lx (handle_identifier lx) := by
  unfold handle_identifier
  dsimp only
  have h1 := advance_while_moves (fun c => isalnum c || c == '_') isident_stop (remaining lx) lx
  have hfw := advance_while_forward (fun c => isalnum c || c == '_') (remaining lx) lx
  exact Moves.trans_moves h1 (Moves.of_move
    (Move.slice _ _ lx.current hfw.2.2.2.2.2.1 (identifier_type_kind _)))

theorem lexer_default_moves (lx : Lexer) : Moves lx (lexer_default lx).lexer := by
  unfold lexer_default
  dsimp only
  split_ifs with h1 h2 h3 h4 h5
  · exact Moves.trans_moves
      (Moves.of_move (Move.skip lx (by rw [h1]; decide) (by rw [h1]; decide)))
      (string_loop_moves _ _)
  · have hq : peek (string_loop (remaining { lx with current := lx.current + 1 })
        { lx with current := lx.current + 1 }) = '\"' := by
      rcases string_loop_exit (remaining { lx with current := lx.current + 1 })
        { lx with current := lx.current + 1 } (Nat.le_refl _) with h | h
      · exact absurd h h2
      · exact h
    have hfw := string_loop_forward (remaining { lx with current := lx.current + 1 })
      { lx with current := lx.current + 1 }
    have m1 : Moves lx { lx with current := lx.current + 1 } :=
      Moves.of_move (Move.skip lx (by rw [h1]; decide) (by rw [h1]; decide))
    have m2 := Moves.trans_moves m1 (string_loop_moves
      (remaining { lx with current := lx.current + 1 }) { lx with current := lx.current + 1 })
    have m3 := Moves.trans_moves m2 (Moves.of_move
      (Move.slice _ tok_string (lx.current + 1) hfw.2.2.2.2.2.1 rfl))
    exact Moves.trans_moves m3 (Moves.of_move
      (Move.skip _ (by rw [peek_push_token, hq]; decide) (by rw [peek_push_token, hq]; decide)))
  · have hfw := advance_while_forward isdigit (remaining lx) lx
    have hfw2 := advance_while_forward isdigit
      (remaining { advance_while isdigit (remaining lx) lx with
        current := (advance_while isdigit (remaining lx) lx).current + 1 })
      { advance_while isdigit (remaining lx) lx with
        current := (advance_while isdigit (remaining lx) lx).current + 1 }
    have hcur := hfw2.2.2.2.2.2.1
    have hcur1 := hfw.2.2.2.2.2.1
    have m1 := advance_while_moves isdigit isdigit_stop (remaining lx) lx
    have m2 := Moves.trans_moves m1 (Moves.of_move
      (Move.skip _ (by rw [h4]; decide) (by rw [h4]; decide)))
    have m3 := Moves.trans_moves m2 (advance_while_moves isdigit isdigit_stop
      (remaining { advance_while isdigit (remaining lx) lx with
        current := (advance_while isdigit (remaining lx) lx).current + 1 }) _)
    exact Moves.trans_moves m3 (Moves.of_move
      (Move.slice _ tok_number lx.current
        (Nat.le_trans hcur1 (Nat.le_trans (Nat.le_succ _) hcur)) rfl))
  · have hfw := advance_while_forward isdigit (remaining lx) lx
    exact Moves.trans_moves (advance_while_moves isdigit isdigit_stop _ _) (Moves.of_move
      (Move.slice _ tok_number lx.current hfw.2.2.2.2.2.1 rfl))
  · exact handle_identifier_moves lx
  · exact Moves.refl_moves lx

theorem punct_moves (lx : Lexer) (ty : Token) (s : List Char) (h0 : peek lx ≠ NUL)
    (hn : peek lx ≠ '\n') (hk : is_lexeme_kind ty = false) :
    Moves lx (advance (push_token lx ty (some s))) :=
  Moves.trans_moves (Moves.of_move (Move.fixed lx ty (some s) hk))
    (Moves.of_move (Move.skip _ (by rw [peek_push_token]; exact h0)
      (by rw [peek_push_token]; exact hn)))

theorem lexer_step_moves (lx : Lexer) : Moves lx (lexer_step lx).lexer := by
  unfold lexer_step
  split
  case h_27 => exact lexer_default_moves lx
  case h_4 =>
    rename_i heq
    exact Moves.of_move (Move.newline lx heq)
  case h_12 =>
    rename_i heq
    split
    · rename_i hn
      have m1 : Moves lx { lx with current := lx.current + 1 } :=
        Moves.of_move (Move.skip lx (by rw [heq]; decide) (by rw [heq]; decide))
      have hp : peek ({ lx with current := lx.current + 1 } : Lexer) = ':' := hn
      exact Moves.trans_moves m1 (punct_moves _ tok_double_colon _ (by rw [hp]; decide)
        (by rw [hp]; decide) rfl)
    · exact punct_moves lx _ _ (by rw [heq]; decide) (by rw [heq]; decide) rfl
  case h_17 =>
    rename_i heq
    split
    · rename_i hn
      have m1 : Moves lx { lx with current := lx.current + 1 } :=
        Moves.of_move (Move.skip lx (by rw [heq]; decide) (by rw [heq]; decide))
      have hp : peek ({ lx with current := lx.current + 1 } : Lexer) = '/' := hn
      have m2 : Moves lx { lx with current := lx.current + 2 } :=
        Moves.trans_moves m1 (Moves.of_move (Move.skip _ (by rw [hp]; decide) (by rw [hp]; decide)))
      exact Moves.trans_moves m2 (advance_while_moves _ comment_stop _ _)
    · exact punct_moves lx _ _ (by rw [heq]; decide) (by rw [heq]; decide) rfl
  all_goals
    rename_i heq
    first
      | exact Moves.of_move (Move.skip lx (by rw [heq]; decide) (by rw [heq]; decide))
      | exact punct_moves lx _ _ (by rw [heq]; decide) (by rw [heq]; decide) rfl

theorem line_begin_snoc (s : List Char) (c : Char) :
    line_begin (s ++ [c]) = if c = '\n' then s.length + 1 else line_begin s := by
  unfold line_begin
  by_cases h : c = '\n'
  · subst h
    simp [List.takeWhile_cons]
  · simp [List.takeWhile_cons, h]

theorem take_succ_peek {lx : Lexer} (h : peek lx ≠ NUL) :
    lx.start.take (lx.current + 1) = lx.start.take lx.current ++ [peek lx] := by
  have hlt := peek_lt h
  unfold peek
  rw [List.take_succ, List.getD_eq_getElem _ _ hlt, List.getElem?_eq_getElem hlt]
  rfl

theorem valid_tokens_length {lx : Lexer} (h : lx.WF) :
    (valid_tokens lx).length = lx.token_count := by
  obtain ⟨h1, _, h3⟩ := h
  simp [valid_tokens]; omega

theorem valid_locations_length {lx : Lexer} (h : lx.WF) :
    (valid_locations lx).length = lx.token_count := by
  obtain ⟨_, h2, h3⟩ := h
  simp [valid_locations]; omega

theorem zip_push (lx : Lexer) (ty : Token) (s : Option (List Char)) (h : lx.WF) :
    (valid_tokens (push_token lx ty s)).zip (valid_locations (push_token lx ty s)) =
      (valid_tokens lx).zip (valid_locations lx) ++ [(token_data ty s, token_location lx)] := by
  rw [push_token_valid_tokens lx ty s h, push_token_valid_locations lx ty s h,
    List.zip_append (by rw [valid_tokens_length h, valid_locations_length h])]
  rfl

theorem token_location_sound {lx : Lexer} (h : lx.Sound) :
    (token_location lx).Sound lx.start := by
  refine ⟨h.in_range, ?_, ?_⟩
  · exact h.line_ok
  · show lx.current - lx.line_start = lx.current - line_begin (lx.start.take lx.current)
    rw [h.line_start_ok]

theorem Lexer.Sound.push_fixed {lx : Lexer} (h : lx.Sound) (ty : Token)
    (s : Option (List Char)) (hk : is_lexeme_kind ty = false) :
    (push_token lx ty s).Sound := by
  refine ⟨push_token_WF lx ty s h.wf, ?_, ?_, ?_, ?_, ?_, ?_⟩
  · simpa using h.in_range
  · simpa using h.no_nul
  · simpa using h.line_ok
  · simpa using h.line_start_ok
  · rw [push_token_valid_locations lx ty s h.wf, push_token_start]
    intro loc hl
    rcases List.mem_append.mp hl with hl | hl
    · exact h.locs_ok loc hl
    · rw [List.mem_singleton.mp hl]; exact token_location_sound h
  · rw [zip_push lx ty s h.wf, push_token_start]
    intro p hp
    rcases List.mem_append.mp hp with hp | hp
    · exact h.toks_ok p hp
    · rw [List.mem_singleton.mp hp]
      intro hkind
      have : (token_data ty s).type = ty := by cases s <;> rfl
      rw [this, hk] at hkind
      exact Bool.noConfusion hkind

theorem slice_eq {lx : Lexer} (h : lx.Sound) (a : Nat) :
    copy_slice lx.start a (lx.current - a) = (lx.start.take lx.current).drop a := by
  unfold copy_slice
  rw [List.drop_take]
  apply c_str_eq_self
  intro x hx
  rw [← List.drop_take] at hx
  exact h.no_nul x (List.mem_of_mem_drop hx)

theorem Lexer.Sound.push_slice {lx : Lexer} (h : lx.Sound) (ty : Token) (a : Nat)
    (ha : a ≤ lx.current) :
    (push_token lx ty (some (copy_slice lx.start a (lx.current - a)))).Sound := by
  refine ⟨push_token_WF lx ty _ h.wf, ?_, ?_, ?_, ?_, ?_, ?_⟩
  · simpa using h.in_range
  · simpa using h.no_nul
  · simpa using h.line_ok
  · simpa using h.line_start_ok
  · rw [push_token_valid_locations lx ty _ h.wf, push_token_start]
    intro loc hl
    rcases List.mem_append.mp hl with hl | hl
    · exact h.locs_ok loc hl
    · rw [List.mem_singleton.mp hl]; exact token_location_sound h
  · rw [zip_push lx ty _ h.wf, push_token_start]
    intro p hp
    rcases List.mem_append.mp hp with hp | hp
    · exact h.toks_ok p hp
    · rw [List.mem_singleton.mp hp]
      intro _
      have hnn : ∀ x ∈ (lx.start.take lx.current).drop a, x ≠ NUL :=
        fun x hx => h.no_nul x (List.mem_of_mem_drop hx)
      have hlen : ((lx.start.take lx.current).drop a).length = lx.current - a := by
        rw [List.length_drop, List.length_take_of_le h.in_range]
      rw [slice_eq h a, token_data_some ty hnn]
      show ((lx.start.take lx.current).drop a).length ≤ lx.current ∧
        some ((lx.start.take lx.current).drop a) =
          some ((lx.start.take lx.current).drop
            (lx.current - ((lx.start.take lx.current).drop a).length))
      rw [hlen]
      refine ⟨Nat.sub_le _ _, ?_⟩
      rw [Nat.sub_sub_self ha]

theorem Lexer.Sound.skip_sound {lx : Lexer} (h : lx.Sound) (h0 : peek lx ≠ NUL)
    (hn : peek lx ≠ '\n') : ({ lx with current := lx.current + 1 } : Lexer).Sound := by
  have htake := take_succ_peek h0
  refine ⟨h.wf, peek_lt h0, ?_, ?_, ?_, h.locs_ok, h.toks_ok⟩
  · show ∀ x ∈ lx.start.take (lx.current + 1), x ≠ NUL
    rw [htake]
    intro x hx
    rcases List.mem_append.mp hx with hx | hx
    · exact h.no_nul x hx
    · rw [List.mem_singleton.mp hx]; exact h0
  · show lx.line_number = 1 + (lx.start.take (lx.current + 1)).count '\n'
    rw [htake, List.count_append, List.count_singleton, h.line_ok]
    simp [hn]
  · show lx.line_start = line_begin (lx.start.take (lx.current + 1))
    rw [htake, line_begin_snoc, if_neg hn, h.line_start_ok]

theorem Lexer.Sound.newline_sound {lx : Lexer} (h : lx.Sound) (hn : peek lx = '\n') :
    ({ lx with line_number := lx.line_number + 1, line_start := lx.current + 1,
               current := lx.current + 1 } : Lexer).Sound := by
  have h0 : peek lx ≠ NUL := by rw [hn]; decide
  have htake := take_succ_peek h0
  refine ⟨h.wf, peek_lt h0, ?_, ?_, ?_, h.locs_ok, h.toks_ok⟩
  · show ∀ x ∈ lx.start.take (lx.current + 1), x ≠ NUL
    rw [htake]
    intro x hx
    rcases List.mem_append.mp hx with hx | hx
    · exact h.no_nul x hx
    · rw [List.mem_singleton.mp hx]; exact h0
  · show lx.line_number + 1 = 1 + (lx.start.take (lx.current + 1)).count '\n'
    rw [htake, List.count_append, hn, List.count_singleton_self, h.line_ok]
    omega
  · show lx.current + 1 = line_begin (lx.start.take (lx.current + 1))
    rw [htake, line_begin_snoc, hn, if_pos rfl, List.length_take_of_le h.in_range]

theorem Move.sound_step {a b : Lexer} (m : Move a b) (h : a.Sound) : b.Sound := by
  cases m with
  | skip h0 hn => exact h.skip_sound h0 hn
  | newline hn => exact h.newline_sound hn
  | fixed ty s hk => exact h.push_fixed ty s hk
  | slice ty x ha hk => exact h.push_slice ty x ha

theorem Moves.sound_run {a b : Lexer} (m : Moves a b) (h : a.Sound) : b.Sound := by
  induction m with
  | refl => exact h
  | tail _ hm ih => exact hm.sound_step ih

theorem Move.start_step {a b : Lexer} (m : Move a b) : b.start = a.start := by
  cases m <;> simp

theorem Moves.start_run {a b : Lexer} (m : Moves a b) : b.start = a.start := by
  induction m with
  | refl => rfl
  | tail _ hm ih => exact hm.start_step.trans ih

theorem lexer_init_Sound (src : List Char) : (lexer_init src).Sound := by
  refine ⟨lexer_init_WF src, Nat.zero_le _, ?_, ?_, ?_, ?_, ?_⟩ <;>
    simp [lexer_init, valid_tokens, valid_locations, line_begin]

theorem lexer_loop_moves (fuel : Nat) : ∀ (lx : Lexer) (r : RunResult),
    lexer_loop fuel lx = some r → Moves lx r.lexer := by
  induction fuel with
  | zero => intro lx r h; simp [lexer_loop] at h
  | succ n ih =>
    intro lx r h
    unfold lexer_loop at h
    have hm := lexer_step_moves lx
    split at h
    · split at h
      · rename_i lx' heq
        rw [heq] at hm
        exact Moves.trans_moves hm (ih lx' r h)
      · rename_i lx' d heq
        rw [heq] at hm
        simp only [Option.some.injEq] at h
        subst h
        exact hm
    · simp only [Option.some.injEq] at h
      subst h
      exact Moves.of_move (Move.fixed lx tok_eof none rfl)

theorem scan_sound (src : List Char) (r : RunResult) (h : scan src = some r) :
    r.lexer.start = src ∧ r.lexer.Sound :=
  ⟨(lexer_loop_moves _ _ r h).start_run, (lexer_loop_moves _ _ r h).sound_run (lexer_init_Sound src)⟩

/-! ## Buffer capacity and the frame of `push_token` -/

theorem ensure_capacity_token_capacity (lx : Lexer) :
    (ensure_capacity lx).token_capacity =
      if lx.token_count ≥ lx.token_capacity then
        (if lx.token_capacity = 0 then 8 else lx.token_capacity * 2)
      else lx.token_capacity := by
  unfold ensure_capacity
  split <;> rfl

theorem push_token_token_capacity (lx : Lexer) (ty : Token) (s : Option (List Char)) :
    (push_token lx ty s).token_capacity =
      if lx.token_count ≥ lx.token_capacity then
        (if lx.token_capacity = 0 then 8 else lx.token_capacity * 2)
      else lx.token_capacity := by
  rw [← ensure_capacity_token_capacity]
  rfl

theorem Lexer.CapOK.push_cap {lx : Lexer} (h : lx.CapOK) (ty : Token) (s : Option (List Char)) :
    (push_token lx ty s).CapOK := by
  obtain ⟨hwf, hc⟩ := h
  refine ⟨push_token_WF lx ty s hwf, Or.inr ⟨by simp, ?_⟩⟩
  rw [push_token_token_capacity, push_token_token_count]
  obtain ⟨_, _, hle⟩ := hwf
  rcases hc with ⟨h0, h1⟩ | ⟨h1, j, hj, hmin⟩
  · refine ⟨0, ?_, Or.inl rfl⟩
    simp [h0, h1]
  · have hpos : 0 < lx.token_capacity := by omega
    by_cases hfull : lx.token_count ≥ lx.token_capacity
    · refine ⟨j + 1, ?_, Or.inr ?_⟩
      · rw [if_pos hfull, if_neg (by omega), hj, pow_succ]; ring
      · rw [if_pos hfull, if_neg (by omega)]; omega
    · refine ⟨j, ?_, ?_⟩
      · rw [if_neg hfull, hj]
      · rw [if_neg hfull]
        rcases hmin with h | h
        · exact Or.inl h
        · exact Or.inr (by omega)

theorem Move.cap_step {a b : Lexer} (m : Move a b) (h : a.CapOK) : b.CapOK := by
  cases m with
  | skip h0 hn => exact h
  | newline hn => exact h
  | fixed ty s hk => exact h.push_cap ty s
  | slice ty x ha hk => exact h.push_cap ty _

theorem Moves.cap_run {a b : Lexer} (m : Moves a b) (h : a.CapOK) : b.CapOK := by
  induction m with
  | refl => exact h
  | tail _ hm ih => exact hm.cap_step ih

theorem lexer_init_CapOK (src : List Char) : (lexer_init src).CapOK :=
  ⟨lexer_init_WF src, Or.inl ⟨rfl, rfl⟩⟩

theorem push_tokens_CapOK (args : List (Token × Option (List Char))) :
    ∀ lx : Lexer, lx.CapOK →
      (push_tokens lx args).CapOK ∧
      (push_tokens lx args).token_count = lx.token_count + args.length := by
  induction args with
  | nil => intro lx h; exact ⟨h, rfl⟩
  | cons a args ih =>
    intro lx h
    obtain ⟨h1, h2⟩ := ih (push_token lx a.1 a.2) (h.push_cap a.1 a.2)
    refine ⟨h1, ?_⟩
    show (push_tokens (push_token lx a.1 a.2) args).token_count = _
    rw [h2, push_token_token_count, List.length_cons]
    omega

/-- A capacity allowed by `CapOK` for a non-zero count is the smallest value
`8 * 2 ^ j` that holds the count. -/
theorem Lexer.CapOK.smallest {lx : Lexer} (h : lx.CapOK) (hk : 1 ≤ lx.token_count) :
    lx.token_count ≤ lx.token_capacity ∧
    ∃ j, lx.token_capacity = 8 * 2 ^ j ∧
      ∀ i, lx.token_count ≤ 8 * 2 ^ i → 8 * 2 ^ j ≤ 8 * 2 ^ i := by
  obtain ⟨⟨_, _, hle⟩, hc⟩ := h
  refine ⟨hle, ?_⟩
  rcases hc with ⟨h0, _⟩ | ⟨_, j, hj, hmin⟩
  · omega
  · refine ⟨j, hj, ?_⟩
    intro i hi
    rcases hmin with h | h
    · subst h
      have := Nat.one_le_two_pow (n := i)
      simp only [pow_zero]
      omega
    · have hlt : 2 ^ j < 2 ^ (i + 1) := by
        rw [pow_succ]
        omega
      have hji : j < i + 1 := (Nat.pow_lt_pow_iff_right (by decide)).mp hlt
      have := Nat.pow_le_pow_right (by decide : 0 < 2) (Nat.lt_succ_iff.mp hji)
      omega

/-- C17: after `lexer_init` the capacity and the count are 0; after `k >= 1`
calls of `push_token` the count is `k`, it does not exceed the capacity, and the
capacity is the smallest value `8 * 2 ^ j` that is at least `k`.  The same holds
for the buffers a scan leaves behind. -/
theorem capacity_doubles :
    (∀ src, (lexer_init src).token_capacity = 0 ∧ (lexer_init src).token_count = 0) ∧
    (∀ src args, 1 ≤ args.length →
      (push_tokens (lexer_init src) args).token_count = args.length ∧
      (push_tokens (lexer_init src) args).token_count ≤
        (push_tokens (lexer_init src) args).token_capacity ∧
      ∃ j, (push_tokens (lexer_init src) args).token_capacity = 8 * 2 ^ j ∧
        ∀ i, args.length ≤ 8 * 2 ^ i → 8 * 2 ^ j ≤ 8 * 2 ^ i) ∧
    (∀ src r, scan src = some r → 1 ≤ r.lexer.token_count →
      r.lexer.token_count ≤ r.lexer.token_capacity ∧
      ∃ j, r.lexer.token_capacity = 8 * 2 ^ j ∧
        ∀ i, r.lexer.token_count ≤ 8 * 2 ^ i → 8 * 2 ^ j ≤ 8 * 2 ^ i) := by
  refine ⟨fun src => ⟨rfl, rfl⟩, ?_, ?_⟩
  · intro src args hk
    obtain ⟨hcap, hcount⟩ := push_tokens_CapOK args (lexer_init src) (lexer_init_CapOK src)
    have hc : (push_tokens (lexer_init src) args).token_count = args.length := by
      rw [hcount]; simp [lexer_init]
    obtain ⟨h1, j, hj, hmin⟩ := hcap.smallest (by omega)
    refine ⟨hc, h1, j, hj, ?_⟩
    intro i hi
    exact hmin i (by omega)
  · intro src r hrun hk
    exact ((lexer_loop_moves _ _ r hrun).cap_run (lexer_init_CapOK src)).smallest hk

/-- Witness for C17: nine pushes give capacity 16, and so does the scan of a
source with eight punctuation marks. -/
theorem capacity_doubles_witness :
    (push_tokens (lexer_init []) (List.replicate 9 (tok_comma, some ",".toList))).token_count = 9 ∧
    (push_tokens (lexer_init []) (List.replicate 9 (tok_comma, some ",".toList))).token_capacity
      = 16 ∧
    (push_tokens (lexer_init []) (List.replicate 8 (tok_comma, some ",".toList))).token_capacity
      = 8 ∧
    (∃ r, scan ",,,,,,,,".toList = some r ∧ r.lexer.token_count = 9 ∧
      r.lexer.token_capacity = 16) ∧
    ∃ j, (push_tokens (lexer_init []) (List.replicate 9 (tok_comma, some ",".toList))).token_capacity
        = 8 * 2 ^ j ∧
      ∀ i, (List.replicate 9 (tok_comma, some ",".toList)).length ≤ 8 * 2 ^ i →
        8 * 2 ^ j ≤ 8 * 2 ^ i :=
  ⟨rfl, rfl, rfl, ⟨_, rfl, rfl, rfl⟩,
    (capacity_doubles.2.1 [] (List.replicate 9 (tok_comma, some ",".toList)) (by decide)).2.2⟩

theorem set_getElem?_lt {α : Type} (l : List α) (n i : Nat) (d : α) (h : i < n) :
    (l.set n d)[i]? = l[i]? := by
  rw [List.getElem?_set_ne (by omega)]

theorem ensure_capacity_tokens_below (lx : Lexer) (h : lx.WF) (i : Nat)
    (hi : i < lx.token_count) :
    (ensure_capacity lx).tokens[i]? = lx.tokens[i]? ∧
    (ensure_capacity lx).locations[i]? = lx.locations[i]? := by
  obtain ⟨h1, h2, h3⟩ := h
  unfold ensure_capacity
  split
  · exact ⟨List.getElem?_append_left (by omega), List.getElem?_append_left (by omega)⟩
  · exact ⟨rfl, rfl⟩

/-- C18: on a lexer with well-formed buffers `push_token` adds exactly one to
`token_count`, stores the new token and the new location at the old
`token_count`, leaves all lower slots of both arrays as they were, and touches
neither the cursor nor `line_start` nor `line_number`.  Well-formedness holds
after `lexer_init`, is kept by `push_token` and by every pass through the loop
body of `lexer_run`, and makes both arrays hold `token_count` valid entries. -/
theorem push_token_frame :
    (∀ (lx : Lexer) (ty : Token) (s : Option (List Char)), lx.WF →
      (push_token lx ty s).token_count = lx.token_count + 1 ∧
      (push_token lx ty s).tokens[lx.token_count]? = some (token_data ty s) ∧
      (push_token lx ty s).locations[lx.token_count]? = some (token_location lx) ∧
      (∀ i, i < lx.token_count →
        (push_token lx ty s).tokens[i]? = lx.tokens[i]? ∧
        (push_token lx ty s).locations[i]? = lx.locations[i]?) ∧
      (push_token lx ty s).current = lx.current ∧
      (push_token lx ty s).line_start = lx.line_start ∧
      (push_token lx ty s).line_number = lx.line_number ∧
      (push_token lx ty s).start = lx.start ∧
      (push_token lx ty s).WF) ∧
    (∀ src, (lexer_init src).WF) ∧
    (∀ lx : Lexer, lx.WF → (lexer_step lx).lexer.WF) ∧
    (∀ lx : Lexer, lx.WF →
      (valid_tokens lx).length = lx.token_count ∧
      (valid_locations lx).length = lx.token_count) := by
  refine ⟨?_, lexer_init_WF, ?_, fun lx h => ⟨valid_tokens_length h, valid_locations_length h⟩⟩
  · intro lx ty s h
    obtain ⟨⟨h1, h2, _⟩, h4⟩ := ensure_capacity_room lx h
    refine ⟨by simp, ?_, ?_, ?_, by simp, by simp, by simp, by simp, push_token_WF lx ty s h⟩
    · simp only [push_token, ensure_capacity_token_count]
      rw [List.getElem?_set_self (by omega)]
    · simp only [push_token, ensure_capacity_token_count, token_location_ensure_capacity]
      rw [List.getElem?_set_self (by omega)]
    · intro i hi
      obtain ⟨e1, e2⟩ := ensure_capacity_tokens_below lx h i hi
      simp only [push_token, ensure_capacity_token_count]
      exact ⟨(set_getElem?_lt _ _ _ _ hi).trans e1, (set_getElem?_lt _ _ _ _ hi).trans e2⟩
  · intro lx h
    have hm := lexer_step_moves lx
    have key : ∀ a b : Lexer, Moves a b → a.WF → b.WF := by
      intro a b m
      induction m with
      | refl => exact id
      | tail _ hm ih =>
        intro ha
        have hb := ih ha
        cases hm with
        | skip h0 hn => exact hb
        | newline hn => exact hb
        | fixed ty s hk => exact push_token_WF _ ty s hb
        | slice ty x ha hk => exact push_token_WF _ ty _ hb
    exact key _ _ hm h

/-- Witness for C18: the second push of a scan in progress. -/
theorem push_token_frame_witness :
    (push_token (push_token (lexer_init "a b".toList) tok_identifier (some "a".toList))
      tok_identifier (some "b".toList)).token_count = 2 ∧
    (push_token (push_token (lexer_init "a b".toList) tok_identifier (some "a".toList))
      tok_identifier (some "b".toList)).tokens[0]? = some ⟨tok_identifier, some "a".toList, 1⟩ ∧
    (push_token (push_token (lexer_init "a b".toList) tok_identifier (some "a".toList))
      tok_identifier (some "b".toList)).tokens[1]? = some ⟨tok_identifier, some "b".toList, 1⟩ ∧
    (push_token (lexer_init "a b".toList) tok_identifier (some "a".toList)).WF ∧
    (push_token (push_token (lexer_init "a b".toList) tok_identifier (some "a".toList))
      tok_identifier (some "b".toList)).WF :=
  ⟨rfl, rfl, rfl, (push_token_frame.1 _ _ _ (lexer_init_WF _)).2.2.2.2.2.2.2.2,
    (push_token_frame.1 _ _ _ (push_token_WF _ _ _ (lexer_init_WF _))).2.2.2.2.2.2.2.2⟩

/-! ## What a failing run leaves behind -/

theorem Move.keeps_step {a b : Lexer} (m : Move a b) (h : a.WF) :
    b.WF ∧ valid_tokens a <+: valid_tokens b ∧ valid_locations a <+: valid_locations b := by
  cases m with
  | skip h0 hn => exact ⟨h, List.prefix_refl _, List.prefix_refl _⟩
  | newline hn => exact ⟨h, List.prefix_refl _, List.prefix_refl _⟩
  | fixed ty s hk =>
    exact ⟨push_token_WF _ ty s h, by rw [push_token_valid_tokens _ ty s h]; simp,
      by rw [push_token_valid_locations _ ty s h]; simp⟩
  | slice ty x ha hk =>
    exact ⟨push_token_WF _ ty _ h, by rw [push_token_valid_tokens _ ty _ h]; simp,
      by rw [push_token_valid_locations _ ty _ h]; simp⟩

theorem Moves.keeps_run {a b : Lexer} (m : Moves a b) (h : a.WF) :
    b.WF ∧ valid_tokens a <+: valid_tokens b ∧ valid_locations a <+: valid_locations b := by
  induction m with
  | refl => exact ⟨h, List.prefix_refl _, List.prefix_refl _⟩
  | tail _ hm ih =>
    obtain ⟨h1, h2, h3⟩ := ih
    obtain ⟨k1, k2, k3⟩ := hm.keeps_step h1
    exact ⟨k1, h2.trans k2, h3.trans k3⟩

/-- C12, as the code has it: when `lexer_run` fails, nothing is discarded.
Whatever state the loop passes through (`lx`, with well-formed buffers), the
tokens and locations it holds there are still held, in order, by the state
left to the caller, whose `token_count` is their number. -/
theorem failed_run_keeps_tokens (fuel : Nat) (lx : Lexer) (r : RunResult) (hwf : lx.WF)
    (hrun : lexer_loop fuel lx = some r) (_hret : r.ret = -1) :
    valid_tokens lx <+: valid_tokens r.lexer ∧
    valid_locations lx <+: valid_locations r.lexer ∧
    lx.token_count ≤ r.lexer.token_count ∧
    r.lexer.token_count = (valid_tokens r.lexer).length := by
  obtain ⟨h1, h2, h3⟩ := (lexer_loop_moves fuel lx r hrun).keeps_run hwf
  refine ⟨h2, h3, ?_, (valid_tokens_length h1).symm⟩
  have := h2.length_le
  rw [valid_tokens_length hwf, valid_tokens_length h1] at this
  exact this

/-- Witness for the amended C12: the failing scan of `a ~ b`, taken up in the
state in which the identifier `a` has just been pushed. -/
theorem failed_run_keeps_tokens_witness :
    ∃ r, lexer_loop 5 (push_token { lexer_init "a ~ b".toList with current := 1 }
          tok_identifier (some "a".toList)) = some r ∧ r.ret = -1 ∧
      valid_tokens (push_token { lexer_init "a ~ b".toList with current := 1 }
          tok_identifier (some "a".toList)) <+: valid_tokens r.lexer ∧
      valid_locations (push_token { lexer_init "a ~ b".toList with current := 1 }
          tok_identifier (some "a".toList)) <+: valid_locations r.lexer ∧
      (push_token { lexer_init "a ~ b".toList with current := 1 }
          tok_identifier (some "a".toList)).token_count ≤ r.lexer.token_count ∧
      r.lexer.token_count = (valid_tokens r.lexer).length :=
  ⟨_, rfl, rfl, failed_run_keeps_tokens 5
    (push_token { lexer_init "a ~ b".toList with current := 1 } tok_identifier
      (some "a".toList)) _ ⟨rfl, rfl, by decide⟩ rfl rfl⟩

/-- C12 as stated fails: the scan of `a ~ b` returns -1 with the
invalid-character diagnostic for `~`, and the lexer it leaves behind has
`token_count = 1` and still holds the identifier token for `a`. -/
theorem failed_scan_holds_tokens :
    ∃ r, scan "a ~ b".toList = some r ∧ r.ret = -1 ∧
      r.diag = some (.invalid_character '~' 1) ∧
      r.lexer.token_count = 1 ∧
      valid_tokens r.lexer = [⟨tok_identifier, some "a".toList, 1⟩] ∧
      ¬ (r.lexer.token_count = 0) ∧ ¬ (valid_tokens r.lexer = []) :=
  ⟨_, rfl, rfl, rfl, rfl, rfl, by decide, by decide⟩

/-! ## Locations, termination and lexeme slices -/

/-- C15: every location recorded by a scan has line 1 plus the number of
newlines of the source before its offset, and column equal to the offset minus
the index just past the last such newline (the offset itself when there is
none), wherever the newlines stand. -/
theorem location_matches_text (src : List Char) (r : RunResult) (hrun : scan src = some r)
    (loc : Location) (hloc : loc ∈ valid_locations r.lexer) :
    loc.line = 1 + (src.take loc.offset).count '\n' ∧
    loc.column = loc.offset - line_begin (src.take loc.offset) ∧
    ((∀ x ∈ src.take loc.offset, x ≠ '\n') → loc.column = loc.offset) := by
  obtain ⟨hs, hsound⟩ := scan_sound src r hrun
  have h := hsound.locs_ok loc hloc
  rw [hs] at h
  refine ⟨h.2.1, h.2.2, ?_⟩
  intro hno
  rw [h.2.2]
  have : line_begin (src.take loc.offset) = 0 := by
    unfold line_begin
    have htw : (src.take loc.offset).reverse.takeWhile (fun c => c != '\n')
        = (src.take loc.offset).reverse := by
      rw [List.takeWhile_eq_self_iff]
      intro x hx
      simpa using hno x (List.mem_reverse.mp hx)
    rw [htw, List.length_reverse, Nat.sub_self]
  rw [this, Nat.sub_zero]

/-- Witness for C15: a source with a newline at top level, one inside a string
literal and one ending a comment; the last location is that of the end marker. -/
theorem location_matches_text_witness :
    ∃ r, scan "a\n\"x\ny\" // c\nb".toList = some r ∧
      valid_locations r.lexer = [⟨1, 1, 1⟩, ⟨3, 1, 6⟩, ⟨4, 1, 14⟩, ⟨4, 1, 14⟩] ∧
      (⟨3, 1, 6⟩ : Location).line = 1 + ("a\n\"x\ny\" // c\nb".toList.take 6).count '\n' ∧
      (⟨3, 1, 6⟩ : Location).column = 6 - line_begin ("a\n\"x\ny\" // c\nb".toList.take 6) :=
  ⟨_, rfl, rfl,
    (location_matches_text "a\n\"x\ny\" // c\nb".toList _ rfl ⟨3, 1, 6⟩ (by decide)).1,
    (location_matches_text "a\n\"x\ny\" // c\nb".toList _ rfl ⟨3, 1, 6⟩ (by decide)).2.1⟩

theorem Move.range_step {a b : Lexer} (m : Move a b) (h : a.current ≤ a.start.length) :
    b.current ≤ b.start.length := by
  cases m with
  | skip h0 hn => exact peek_lt h0
  | newline hn => exact peek_lt (by rw [hn]; decide)
  | fixed ty s hk => simpa using h
  | slice ty x ha hk => simpa using h

theorem Moves.range_run {a b : Lexer} (m : Moves a b) (h : a.current ≤ a.start.length) :
    b.current ≤ b.start.length := by
  induction m with
  | refl => exact h
  | tail _ hm ih => exact hm.range_step ih

/-- C16: `lexer_run` terminates on every source.  The run returns 0 or -1 with
the cursor inside the buffer; and in any state of the loop whose cursor is
inside the buffer and not at the terminator, the lookahead index `current + 1`
is at most the length, the pass through the loop body leaves the cursor inside
the buffer, and a pass that does not fail moves the cursor strictly forward. -/
theorem lexer_run_terminates (src : List Char) :
    (∃ r, scan src = some r ∧ (r.ret = 0 ∨ r.ret = -1) ∧ r.lexer.start = src ∧
      r.lexer.current ≤ src.length) ∧
    (∀ lx : Lexer, lx.start = src → lx.current ≤ src.length → peek lx ≠ NUL →
      lx.current + 1 ≤ src.length ∧
      (lexer_step lx).lexer.current ≤ src.length ∧
      ∀ lx', lexer_step lx = .next lx' →
        lx'.start = src ∧ lx.current < lx'.current ∧ lx'.current ≤ src.length) := by
  constructor
  · obtain ⟨r, hr⟩ := scan_total src
    obtain ⟨hs, hsound⟩ := scan_sound src r hr
    refine ⟨r, hr, ?_, hs, by rw [← hs]; exact hsound.in_range⟩
    rcases scan_shape src r hr with h | h
    · exact Or.inl h.1
    · exact Or.inr h.1
  · intro lx hs hc hp
    have hlt := peek_lt hp
    have hm := lexer_step_moves lx
    have hb := hm.range_run (by rw [hs]; exact hc)
    rw [hm.start_run, hs] at hb
    refine ⟨by rw [← hs]; exact hlt, hb, ?_⟩
    intro lx' hstep
    have hprog := lexer_step_progress hp
    rw [hstep] at hprog
    obtain ⟨p1, p2, p3⟩ := hprog
    exact ⟨p1.trans hs, p2, by rw [← hs]; exact p3⟩

/-- Witness for C16: the first pass over `::` starts with the cursor at 0 inside
the buffer and moves it to 2, the length of the source. -/
theorem lexer_run_terminates_witness :
    ∃ lx', lexer_step (lexer_init "::".toList) = .next lx' ∧
      (lexer_init "::".toList).current + 1 ≤ "::".toList.length ∧
      lx'.start = "::".toList ∧ (lexer_init "::".toList).current < lx'.current ∧
      lx'.current ≤ "::".toList.length :=
  ⟨_, rfl,
    ((lexer_run_terminates "::".toList).2 (lexer_init "::".toList) rfl (by decide)
      (by decide)).1,
    ((lexer_run_terminates "::".toList).2 (lexer_init "::".toList) rfl (by decide)
      (by decide)).2.2 _ rfl⟩

theorem lexeme_kind_of_mem {ty : Token}
    (h : ty ∈ [tok_string, tok_number, tok_identifier, tok_if, tok_else, tok_while, tok_func,
      tok_return]) : is_lexeme_kind ty = true := by
  simp only [List.mem_cons, List.mem_singleton, List.not_mem_nil, or_false] at h
  rcases h with rfl | rfl | rfl | rfl | rfl | rfl | rfl | rfl <;> rfl

/-- C20: for a token of kind string, number, identifier or keyword stored at
index `i` with the location stored at the same index, the stored length `L` is
at most the recorded offset, the lexeme is the slice `source[offset - L ..
offset)`, and `L` is the number of characters of the lexeme. -/
theorem lexeme_is_slice (src : List Char) (r : RunResult) (hrun : scan src = some r)
    (i : Nat) (t : TokenData) (loc : Location)
    (ht : (valid_tokens r.lexer)[i]? = some t) (hl : (valid_locations r.lexer)[i]? = some loc)
    (hk : t.type ∈ [tok_string, tok_number, tok_identifier, tok_if, tok_else, tok_while,
      tok_func, tok_return]) :
    t.length ≤ loc.offset ∧
    t.lexeme = some ((src.take loc.offset).drop (loc.offset - t.length)) ∧
    ((src.take loc.offset).drop (loc.offset - t.length)).length = t.length := by
  obtain ⟨hs, hsound⟩ := scan_sound src r hrun
  have hz : ((valid_tokens r.lexer).zip (valid_locations r.lexer))[i]? = some (t, loc) :=
    List.getElem?_zip_eq_some.mpr ⟨ht, hl⟩
  have h := hsound.toks_ok (t, loc) (List.getElem?_mem hz) (lexeme_kind_of_mem hk)
  have hoff := (hsound.locs_ok loc (List.getElem?_mem hl)).1
  rw [hs] at h hoff
  refine ⟨h.1, h.2, ?_⟩
  rw [List.length_drop, List.length_take_of_le hoff]
  have h1 : t.length ≤ loc.offset := h.1
  omega

/-- Witness for C20: the string token of the source `"xy" if` sits at index 0,
with the closing quote at offset 3. -/
theorem lexeme_is_slice_witness :
    ∃ r, scan "\"xy\" if".toList = some r ∧
      (valid_tokens r.lexer)[0]? = some ⟨tok_string, some "xy".toList, 2⟩ ∧
      (valid_locations r.lexer)[0]? = some ⟨1, 3, 3⟩ ∧
      (2 ≤ 3 ∧
       some "xy".toList = some (("\"xy\" if".toList.take 3).drop (3 - 2)) ∧
       (("\"xy\" if".toList.take 3).drop (3 - 2)).length = 2) :=
  ⟨_, rfl, rfl, rfl,
    lexeme_is_slice "\"xy\" if".toList _ rfl 0 ⟨tok_string, some "xy".toList, 2⟩ ⟨1, 3, 3⟩
      rfl rfl (by decide)⟩

/-! ## Blank sources and invalid characters -/

theorem lexer_step_blank {lx : Lexer} (h : peek lx = ' ' ∨ peek lx = '\t' ∨ peek lx = '\r') :
    lexer_step lx = .next (advance lx) := by
  unfold lexer_step
  rcases h with h | h | h <;> rw [h] <;> rfl

theorem step_blank {lx : Lexer} {src : List Char} {pos ls ln : Nat} {toks : List TokenData}
    {locs : List Location} (h : lx.At src pos ls ln toks locs) (pre rest : List Char) (c : Char)
    (hsrc : src = pre ++ c :: rest) (hpos : pos = pre.length)
    (hc : c = ' ' ∨ c = '\t' ∨ c = '\r') :
    ∃ lx', (∀ f, lexer_loop (f + 1) lx = lexer_loop f lx') ∧
      lx'.At src (pos + 1) ls ln toks locs := by
  have hp : peek lx = c := h.peek_eq hsrc hpos
  refine ⟨advance lx, lexer_loop_next ?_ (lexer_step_blank (by rw [hp]; exact hc)), h.advance_at⟩
  rw [hp]
  rcases hc with rfl | rfl | rfl <;> decide

theorem blank_run (w : List Char) : ∀ (lx : Lexer) (src pre rest : List Char) (pos ls ln : Nat)
    (toks : List TokenData) (locs : List Location),
    lx.At src pos ls ln toks locs → src = pre ++ (w ++ rest) → pos = pre.length →
    (∀ c ∈ w, c = ' ' ∨ c = '\t' ∨ c = '\r') →
    ∃ lx', (∀ f, lexer_loop (f + w.length) lx = lexer_loop f lx') ∧
      lx'.At src (pos + w.length) ls ln toks locs := by
  induction w with
  | nil =>
    intro lx src pre rest pos ls ln toks locs h _ _ _
    exact ⟨lx, fun _ => rfl, h⟩
  | cons c w ih =>
    intro lx src pre rest pos ls ln toks locs h hsrc hpos hw
    obtain ⟨lx1, hl1, hA1⟩ := step_blank h pre (w ++ rest) c hsrc hpos
      (hw c (List.mem_cons_self _ _))
    obtain ⟨lx2, hl2, hA2⟩ := ih lx1 src (pre ++ [c]) rest (pos + 1) ls ln toks locs hA1
      (by simp [hsrc]) (by simp [hpos]) (fun x hx => hw x (List.mem_cons_of_mem _ hx))
    refine ⟨lx2, ?_, hA2.congr (by simp; omega) rfl rfl rfl rfl⟩
    intro f
    rw [List.length_cons, ← Nat.add_assoc, hl1, hl2]

/-- C14: a source made of spaces, tabs and carriage returns only (the empty
source included) scans to exactly the end marker, located on line 1 with column
and offset equal to the length of the source. -/
theorem blank_source_scan (w : List Char) (hw : ∀ c ∈ w, c = ' ' ∨ c = '\t' ∨ c = '\r') :
    ∃ r, scan w = some r ∧ r.ret = 0 ∧
      valid_tokens r.lexer = [⟨tok_eof, none, 0⟩] ∧
      valid_locations r.lexer = [⟨1, w.length, w.length⟩] := by
  obtain ⟨lx1, hl1, hA1⟩ := blank_run w (lexer_init w) w [] [] 0 0 1 [] [] (lexer_init_At w)
    (by simp) rfl hw
  obtain ⟨r, hr, hret, _, htoks, hlocs⟩ := step_finish hA1 (by simp) 0
  refine ⟨r, ?_, hret, by simpa using htoks, by simpa using hlocs⟩
  show lexer_loop (w.length + 1) (lexer_init w) = some r
  rw [Nat.add_comm, hl1 1, hr]

/-- Witness for C14: the empty source and a source of three blanks. -/
theorem blank_source_scan_witness :
    (∃ r, scan [] = some r ∧ r.ret = 0 ∧
      valid_tokens r.lexer = [⟨tok_eof, none, 0⟩] ∧
      valid_locations r.lexer = [⟨1, 0, 0⟩]) ∧
    (∃ r, scan " \t\r".toList = some r ∧ r.ret = 0 ∧
      valid_tokens r.lexer = [⟨tok_eof, none, 0⟩] ∧
      valid_locations r.lexer = [⟨1, 3, 3⟩]) :=
  ⟨blank_source_scan [] (by decide), blank_source_scan " \t\r".toList (by decide)⟩

theorem step_invalid {lx : Lexer} {src : List Char} {pos ls ln : Nat} {toks : List TokenData}
    {locs : List Location} (h : lx.At src pos ls ln toks locs) (pre rest : List Char) (c : Char)
    (hsrc : src = pre ++ c :: rest) (hpos : pos = pre.length)
    (hc0 : c ≠ NUL) (hcl : c ∉ case_labels) (hq : c ≠ '\"') (ha : isalpha c = false)
    (hd : isdigit c = false) (f : Nat) :
    ∃ r, lexer_loop (f + 1) lx = some r ∧ r.ret = -1 ∧
      r.diag = some (.invalid_character c ln) ∧
      valid_tokens r.lexer = toks ∧ valid_locations r.lexer = locs := by
  have hp : peek lx = c := h.peek_eq hsrc hpos
  have hstep : lexer_step lx = .fail lx (.invalid_character c ln) := by
    rw [lexer_step_default (by rw [hp]; exact hcl)]
    unfold lexer_default
    rw [if_neg (by rw [hp]; exact hq), if_neg (by rw [hp, hd]; decide),
      if_neg (by rw [hp, ha]; decide), hp, h.line_number_eq]
  exact ⟨_, lexer_loop_fail (by rw [hp]; exact hc0) hstep f, rfl, rfl, h.tokens_eq,
    h.locations_eq⟩

theorem span_while (P : Char → Bool) (l : List Char) :
    ∃ a b, l = a ++ b ∧ (∀ x ∈ a, P x = true) ∧ (∀ x rest, b = x :: rest → P x = false) := by
  induction l with
  | nil => exact ⟨[], [], rfl, by simp, by simp⟩
  | cons c l ih =>
    by_cases hc : P c = true
    · obtain ⟨a, b, hab, ha, hb⟩ := ih
      refine ⟨c :: a, b, by rw [hab]; rfl, ?_, hb⟩
      intro x hx
      rcases List.mem_cons.mp hx with rfl | hx
      · exact hc
      · exact ha x hx
    · refine ⟨[], c :: l, rfl, by simp, ?_⟩
      intro x rest h
      have : c = x := (List.cons.inj h).1
      rw [← this]
      simpa using hc

theorem is_plain_ne_dot {x : Char} (h : is_plain x) : x ≠ '.' := by
  rintro rfl
  rcases h with h | h | h | h | h | h <;> exact absurd h (by decide)

theorem headD_append_cases (q : Char → Prop) (l tail : List Char)
    (hl : ∀ x rest, l = x :: rest → q x) (ht : q (tail.headD NUL)) :
    q ((l ++ tail).headD NUL) := by
  cases l with
  | nil => exact ht
  | cons x rest => exact hl x rest rfl

theorem count_newline_word (c : Char) (cs rest : List Char) (hc : c ≠ '\n')
    (hcs : ∀ x ∈ cs, x ≠ '\n') :
    (c :: (cs ++ rest)).count '\n' = rest.count '\n' := by
  have h1 : cs.count '\n' = 0 := List.count_eq_zero.mpr (fun hm => hcs _ hm rfl)
  rw [List.count_cons, List.count_append, h1]
  simp [hc]

/-- Scanning a plain run: the loop passes over `p` in at most `p.length`
iterations, and the tokens and locations it adds depend only on `p` and on the
position at which `p` starts, not on the text after `p`, as long as that text
starts with a stopper. -/
theorem plain_run (n : Nat) : ∀ (p : List Char), p.length ≤ n → (∀ x ∈ p, is_plain x) →
    ∀ (pos ls ln : Nat), ∃ (k ls' : Nat) (nt : List TokenData) (nl : List Location),
      k ≤ p.length ∧
      ∀ (lx : Lexer) (src pre tail : List Char) (toks : List TokenData) (locs : List Location),
        lx.At src pos ls ln toks locs → src = pre ++ (p ++ tail) → pos = pre.length →
        is_stopper (tail.headD NUL) →
        ∃ lx', (∀ f, lexer_loop (f + k) lx = lexer_loop f lx') ∧
          lx'.At src (pos + p.length) ls' (ln + p.count '\n') (toks ++ nt) (locs ++ nl) := by
  induction n with
  | zero =>
    intro p hlen _ pos ls ln
    have hp0 : p = [] := List.length_eq_zero.mp (Nat.le_zero.mp hlen)
    subst hp0
    refine ⟨0, ls, [], [], Nat.le_refl _, ?_⟩
    intro lx src pre tail toks locs h _ _ _
    exact ⟨lx, fun _ => rfl, h.congr rfl rfl rfl (by simp) (by simp)⟩
  | succ n ih =>
    intro p hlen hp pos ls ln
    cases p with
    | nil =>
      refine ⟨0, ls, [], [], Nat.le_refl _, ?_⟩
      intro lx src pre tail toks locs h _ _ _
      exact ⟨lx, fun _ => rfl, h.congr rfl rfl rfl (by simp) (by simp)⟩
    | cons c p' =>
      have hp' : ∀ x ∈ p', is_plain x := fun x hx => hp x (List.mem_cons_of_mem _ hx)
      have hlen' : p'.length ≤ n := by simpa using hlen
      rcases hp c (List.mem_cons_self _ _) with hal | hdg | hbl | hbl | hbl | hnl
      · -- a word
        obtain ⟨cs, q, hsplit, hcs, hq⟩ := span_while (fun c => isalnum c || c == '_') p'
        subst hsplit
        have hqlen : q.length ≤ n := by simp at hlen'; omega
        have hqp : ∀ x ∈ q, is_plain x := fun x hx => hp' x (List.mem_append_right _ hx)
        obtain ⟨k, ls', nt, nl, hk, hIH⟩ := ih q hqlen hqp (pos + (cs.length + 1)) ls ln
        refine ⟨k + 1, ls', ⟨identifier_type (c :: cs), some (c :: cs), cs.length + 1⟩ :: nt,
          ⟨ln, pos + (cs.length + 1) - ls, pos + (cs.length + 1)⟩ :: nl,
          by simp; omega, ?_⟩
        intro lx src pre tail toks locs h hsrc hpos hstop
        obtain ⟨lx1, hl1, hA1⟩ := step_identifier h pre (q ++ tail) c cs
          (by rw [hsrc]; simp) hpos hal hcs
          (headD_append_cases (fun x => (isalnum x || x == '_') = false) q tail hq hstop.1)
        obtain ⟨lx2, hl2, hA2⟩ := hIH lx1 src (pre ++ c :: cs) tail _ _ hA1
          (by rw [hsrc]; simp) (by simp [hpos]) hstop
        refine ⟨lx2, fun f => by rw [← Nat.add_assoc, hl1, hl2], hA2.congr ?_ rfl ?_ ?_ ?_⟩
        · simp; omega
        · rw [count_newline_word c cs q (isident_stop c (isalpha_facts hal).2.2).2
            (fun x hx => (isident_stop x (hcs x hx)).2)]
        · simp
        · simp
      · -- a number
        obtain ⟨ds, q, hsplit, hds, hq⟩ := span_while isdigit p'
        subst hsplit
        have hqlen : q.length ≤ n := by simp at hlen'; omega
        have hqp : ∀ x ∈ q, is_plain x := fun x hx => hp' x (List.mem_append_right _ hx)
        obtain ⟨k, ls', nt, nl, hk, hIH⟩ := ih q hqlen hqp (pos + (ds.length + 1)) ls ln
        refine ⟨k + 1, ls', ⟨tok_number, some (c :: ds), ds.length + 1⟩ :: nt,
          ⟨ln, pos + (ds.length + 1) - ls, pos + (ds.length + 1)⟩ :: nl,
          by simp; omega, ?_⟩
        intro lx src pre tail toks locs h hsrc hpos hstop
        have hst : isdigit (tail.headD NUL) = false := by
          have := hstop.1
          simp only [isalnum, Bool.or_eq_false_iff] at this
          exact this.1.2
        obtain ⟨lx1, hl1, hA1⟩ := step_number h pre (q ++ tail) c ds
          (by rw [hsrc]; simp) hpos hdg hds
          (headD_append_cases (fun x => isdigit x = false) q tail hq hst)
          (headD_append_cases (fun x => x ≠ '.') q tail
            (fun x rest hx => is_plain_ne_dot (hqp x (by rw [hx]; exact List.mem_cons_self _ _)))
            hstop.2)
        obtain ⟨lx2, hl2, hA2⟩ := hIH lx1 src (pre ++ c :: ds) tail _ _ hA1
          (by rw [hsrc]; simp) (by simp [hpos]) hstop
        refine ⟨lx2, fun f => by rw [← Nat.add_assoc, hl1, hl2], hA2.congr ?_ rfl ?_ ?_ ?_⟩
        · simp; omega
        · rw [count_newline_word c ds q (isdigit_stop c hdg).2
            (fun x hx => (isdigit_stop x (hds x hx)).2)]
        · simp
        · simp
      · -- a space
        obtain ⟨k, ls', nt, nl, hk, hIH⟩ := ih p' hlen' hp' (pos + 1) ls ln
        refine ⟨k + 1, ls', nt, nl, by simp; omega, ?_⟩
        intro lx src pre tail toks locs h hsrc hpos hstop
        obtain ⟨lx1, hl1, hA1⟩ := step_blank h pre (p' ++ tail) c (by rw [hsrc]; simp) hpos
          (Or.inl hbl)
        obtain ⟨lx2, hl2, hA2⟩ := hIH lx1 src (pre ++ [c]) tail _ _ hA1
          (by rw [hsrc]; simp) (by simp [hpos]) hstop
        refine ⟨lx2, fun f => by rw [← Nat.add_assoc, hl1, hl2], hA2.congr ?_ rfl ?_ rfl rfl⟩
        · simp; omega
        · rw [List.count_cons]
          have : ¬ (c = '\n') := by rw [hbl]; decide
          simp [this]
      · -- a tab
        obtain ⟨k, ls', nt, nl, hk, hIH⟩ := ih p' hlen' hp' (pos + 1) ls ln
        refine ⟨k + 1, ls', nt, nl, by simp; omega, ?_⟩
        intro lx src pre tail toks locs h hsrc hpos hstop
        obtain ⟨lx1, hl1, hA1⟩ := step_blank h pre (p' ++ tail) c (by rw [hsrc]; simp) hpos
          (Or.inr (Or.inl hbl))
        obtain ⟨lx2, hl2, hA2⟩ := hIH lx1 src (pre ++ [c]) tail _ _ hA1
          (by rw [hsrc]; simp) (by simp [hpos]) hstop
        refine ⟨lx2, fun f => by rw [← Nat.add_assoc, hl1, hl2], hA2.congr ?_ rfl ?_ rfl rfl⟩
        · simp; omega
        · rw [List.count_cons]
          have : ¬ (c = '\n') := by rw [hbl]; decide
          simp [this]
      · -- a carriage return
        obtain ⟨k, ls', nt, nl, hk, hIH⟩ := ih p' hlen' hp' (pos + 1) ls ln
        refine ⟨k + 1, ls', nt, nl, by simp; omega, ?_⟩
        intro lx src pre tail toks locs h hsrc hpos hstop
        obtain ⟨lx1, hl1, hA1⟩ := step_blank h pre (p' ++ tail) c (by rw [hsrc]; simp) hpos
          (Or.inr (Or.inr hbl))
        obtain ⟨lx2, hl2, hA2⟩ := hIH lx1 src (pre ++ [c]) tail _ _ hA1
          (by rw [hsrc]; simp) (by simp [hpos]) hstop
        refine ⟨lx2, fun f => by rw [← Nat.add_assoc, hl1, hl2], hA2.congr ?_ rfl ?_ rfl rfl⟩
        · simp; omega
        · rw [List.count_cons]
          have : ¬ (c = '\n') := by rw [hbl]; decide
          simp [this]
      · -- a newline
        subst hnl
        obtain ⟨k, ls', nt, nl, hk, hIH⟩ := ih p' hlen' hp' (pos + 1) (pos + 1) (ln + 1)
        refine ⟨k + 1, ls', nt, nl, by simp; omega, ?_⟩
        intro lx src pre tail toks locs h hsrc hpos hstop
        obtain ⟨lx1, hl1, hA1⟩ := step_newline h pre (p' ++ tail) (by rw [hsrc]; simp) hpos
        obtain ⟨lx2, hl2, hA2⟩ := hIH lx1 src (pre ++ ['\n']) tail _ _ hA1
          (by rw [hsrc]; simp) (by simp [hpos]) hstop
        refine ⟨lx2, fun f => by rw [← Nat.add_assoc, hl1, hl2], hA2.congr ?_ rfl ?_ rfl rfl⟩
        · simp; omega
        · rw [List.count_cons_self]; omega

/-- C11: after a prefix `p` of ASCII letters, digits, blanks and newlines, a
character `c` that is not the terminator, has no `case` label (so is neither
white space nor a punctuation mark), and is no double quote, letter, digit or
underscore makes `lexer_run` return -1 with the invalid-character diagnostic
for `c` on line 1 plus the number of newlines in `p`; the tokens held at that
point are those of scanning `p` alone without its end marker, whatever follows
`c`. -/
theorem invalid_character_scan (p : List Char) (c : Char) (rest : List Char)
    (hp : ∀ x ∈ p, is_plain x) (_hascii : c.toNat < 128) (hc0 : c ≠ NUL)
    (hcl : c ∉ case_labels) (hq : c ≠ '\"') (ha : isalpha c = false) (hd : isdigit c = false)
    (hu : c ≠ '_') :
    ∃ r1 r2, scan (p ++ c :: rest) = some r1 ∧ r1.ret = -1 ∧
      r1.diag = some (.invalid_character c (1 + p.count '\n')) ∧
      scan p = some r2 ∧ r2.ret = 0 ∧
      valid_tokens r2.lexer = valid_tokens r1.lexer ++ [⟨tok_eof, none, 0⟩] := by
  obtain ⟨k, ls', nt, nl, hk, hrun⟩ := plain_run p.length p (Nat.le_refl _) hp 0 0 1
  have hstop : is_stopper c := by
    refine ⟨by simp [isalnum, ha, hd, hu], ?_⟩
    rintro rfl
    exact hcl (by decide)
  obtain ⟨lx1, hl1, hA1⟩ := hrun (lexer_init (p ++ c :: rest)) (p ++ c :: rest) [] (c :: rest)
    [] [] (lexer_init_At _) rfl rfl hstop
  obtain ⟨r1, hr1, hret1, hdiag1, htoks1, _⟩ := step_invalid hA1 p rest c (by simp) (by simp)
    hc0 hcl hq ha hd 0
  obtain ⟨lx2, hl2, hA2⟩ := hrun (lexer_init p) p [] [] [] [] (lexer_init_At _) (by simp) rfl
    ⟨by decide, by decide⟩
  obtain ⟨r2, hr2, hret2, _, htoks2, _⟩ := step_finish hA2 (by simp) 0
  refine ⟨r1, r2, ?_, hret1, hdiag1, ?_, hret2, by rw [htoks2, htoks1]⟩
  · exact scan_of_loop (k := k + 1) (by rw [Nat.add_comm, hl1 1, hr1]) (by simp; omega)
  · exact scan_of_loop (k := k + 1) (by rw [Nat.add_comm, hl2 1, hr2]) (by omega)

/-- Witness for C11: the source `a ~ b` of the spec. -/
theorem invalid_character_scan_witness :
    ∃ r1 r2, scan ("a ".toList ++ '~' :: " b".toList) = some r1 ∧ r1.ret = -1 ∧
      r1.diag = some (.invalid_character '~' (1 + "a ".toList.count '\n')) ∧
      scan "a ".toList = some r2 ∧ r2.ret = 0 ∧
      valid_tokens r2.lexer = valid_tokens r1.lexer ++ [⟨tok_eof, none, 0⟩] :=
  invalid_character_scan "a ".toList '~' " b".toList (by decide) (by decide) (by decide)
    (by decide) (by decide) (by decide) (by decide) (by decide)

/-! ## Punctuation marks and kind names -/

theorem scan_map_some {α : Type} {src : List Char} {f : RunResult → α} {x : α}
    (h : (scan src).map f = some x) : ∃ r, scan src = some r ∧ f r = x := by
  cases hs : scan src with
  | none => rw [hs] at h; exact absurd h (by simp)
  | some r => rw [hs] at h; exact ⟨r, rfl, by simpa using h⟩

/-- C13: each of the 22 punctuation marks, scanned alone, gives exactly the
token of its kind followed by the end marker; the 22 marks and the 22 kinds are
pairwise distinct. -/
theorem punctuation_round_trip :
    (∀ p ∈ punctuation_table, ∃ r, scan [p.1] = some r ∧ r.ret = 0 ∧
      (valid_tokens r.lexer).map TokenData.type = [p.2, tok_eof]) ∧
    punctuation_table.length = 22 ∧
    (punctuation_table.map Prod.fst).Nodup ∧
    (punctuation_table.map Prod.snd).Nodup := by
  refine ⟨?_, rfl, by decide, by decide⟩
  have key : ∀ p ∈ punctuation_table,
      (scan [p.1]).map (fun r => (r.ret, (valid_tokens r.lexer).map TokenData.type))
        = some (0, [p.2, tok_eof]) := by decide
  intro p hp
  obtain ⟨r, hr, hf⟩ := scan_map_some (key p hp)
  simp only [Prod.mk.injEq] at hf
  exact ⟨r, hr, hf.1, hf.2⟩

/-- C19 on the code: the scanner emits `tok_double_colon` for `::`, and
`token_type_to_string` has no case for that kind, so it answers with the
fallback `Unknown Token Type`.  Every other kind has a name of its own that is
not the fallback. -/
theorem double_colon_has_no_name :
    (∃ r, scan "::".toList = some r ∧ r.ret = 0 ∧
      (valid_tokens r.lexer).map TokenData.type = [tok_double_colon, tok_eof]) ∧
    token_type_to_string tok_double_colon = "Unknown Token Type" ∧
    (∀ k : Token, k ≠ tok_double_colon → k ∈ named_kinds) ∧
    (∀ k ∈ named_kinds, token_type_to_string k ≠ "Unknown Token Type") ∧
    (named_kinds.map token_type_to_string).Nodup := by
  refine ⟨⟨_, rfl, rfl, rfl⟩, rfl, ?_, by decide, by decide⟩
  intro k hk
  cases k <;> first | exact absurd rfl hk | decide

end Jam
